import Mathlib

/-!
Formal model of the `nav2_route` core: the Dijkstra-style route planner
(`src/nav2_route/src/route_planner.cpp`), the edge-adjustment scorer and the
costmap scorer (`src/nav2_route/src/plugins/edge_cost_functions/costmap_scorer.cpp`).

Modelling conventions:
* C++ `float` values are modelled as `ℚ` (exact arithmetic).
* Node and edge pointers are modelled as indexes into the graph (a `List Node`);
  `NodePtr`/`EdgePtr` dereferences become list lookups.
* `SearchState::integrated_cost`, initialized to the largest float (acting as
  +infinity), is modelled as `Option ℚ` with `none` for the initial value.
* C++ exceptions become `Except` errors; `std::set` / `std::unordered_map`
  become boolean / optional-valued functions.
* The `std::priority_queue` of `(cost, node)` pairs is modelled as a list,
  popping a minimal-cost element.  The C++ comparator breaks cost ties by
  pointer comparison, which is unspecified; the model pops the earliest-pushed
  entry among those of minimal cost, one valid refinement of that order.
-/

namespace Nav2Route

/-- 2D coordinate of a node (`Coordinates` in `types.hpp`). -/
structure Coords where
  x : ℚ
  y : ℚ
deriving DecidableEq

/-- Static cost descriptor of an edge (`EdgeCost` in `types.hpp`):
a cost value and whether scorer plugins may override it. -/
structure EdgeCost where
  cost : ℚ
  overridable : Bool
deriving DecidableEq

/-- A directed edge of the routing graph.  The C++ `DirectionalEdge` holds
pointers `start` and `end` to its endpoint nodes; here `startIdx` and `endIdx`
are the indexes of those nodes in the graph list. -/
structure Edge where
  edgeid : ℕ
  startIdx : ℕ
  endIdx : ℕ
  edge_cost : EdgeCost
deriving DecidableEq

/-- A node of the routing graph: stable id, coordinate, and owned outgoing
edges (`neighbors`). The per-node transient `SearchState` is kept outside the
graph in `PlannerState` (the planner resets it at the start of every search). -/
structure Node where
  nodeid : ℕ
  coords : Coords
  neighbors : List Edge
deriving DecidableEq

instance : Inhabited Node := ⟨⟨0, ⟨0, 0⟩, []⟩⟩

/-- The routing graph: an indexed collection of nodes. -/
abbrev Graph := List Node

/-- Dereference a node index (a `NodePtr` in the C++). -/
def nodeOf (g : Graph) (i : ℕ) : Node := g.getD i default

/-- `RoutePlanner::getEdges`: the outgoing edges of a node. -/
def getEdges (g : Graph) (i : ℕ) : List Edge := (nodeOf g i).neighbors

/-- The node id of the end node of an edge (`edge->end->nodeid`). -/
def endNodeid (g : Graph) (e : Edge) : ℕ := (nodeOf g e.endIdx).nodeid

/-- `RoutePlanner::isGoal`: compare a node's id with the stored goal id. -/
def isGoal (g : Graph) (goalId : ℕ) (i : ℕ) : Bool := (nodeOf g i).nodeid == goalId

/-- Model of the `EdgeScorer` aggregator as seen by the route planner: the
number of loaded plugins, and the aggregate `score` function.  `score e c`
models `bool EdgeScorer::score(edge, float & score)` where `c` is the value
held by the reference on entry; the returned pair is (validity, value held by
the reference on return). -/
structure EdgeScorerModel where
  numPlugins : ℕ
  score : Edge → ℚ → Bool × ℚ

/-- Errors surfaced by `RoutePlanner::findRoute`:
`InvalidGraph` models `nav2_core::NoValidGraph`, `NoRoute` models
`nav2_core::NoValidRouteCouldBeFound`, `TimedOut` models
`nav2_core::TimedOut`.  `BacktrackDiverged` has no C++ counterpart: it is the
model's value for a backtracking walk that would never terminate in C++
(a cycle of `parent_edge` back-links); the proofs show it cannot occur in any
state the search produces. -/
inductive RouteError where
  | InvalidGraph : RouteError
  | NoRoute : RouteError
  | TimedOut : RouteError
  | BacktrackDiverged : RouteError
deriving DecidableEq

/-- `RoutePlanner::getTraversalCost`.  Returns `.error ()` for the
`nav2_core::NoValidGraph` throw, `.ok (valid, c)` where `valid` is the C++
return value and `c` the value left in the by-reference `score` argument
(`score0` is the value it held on entry; the blocked-id early return leaves it
untouched). -/
def getTraversalCost (scorer : EdgeScorerModel) (g : Graph) (goalId : ℕ)
    (blocked : List ℕ) (edge : Edge) (score0 : ℚ) : Except Unit (Bool × ℚ) :=
  if (blocked.any fun id => id == edge.edgeid || id == endNodeid g edge) &&
      !isGoal g goalId edge.endIdx then
    .ok (false, score0)
  else if !edge.edge_cost.overridable || scorer.numPlugins == 0 then
    if edge.edge_cost.cost == 0 then
      .error ()
    else
      .ok (true, edge.edge_cost.cost)
  else
    .ok (scorer.score edge score0)

/-- The mutable search state of one `findShortestGraphTraversal` run: the
per-node `SearchState` fields (as functions from node index) and the priority
queue `queue_` of `(cost, node)` elements. -/
structure PlannerState where
  integrated_cost : ℕ → Option ℚ
  traversal_costs : ℕ → ℚ
  parent_edge : ℕ → Option Edge
  queue : List (ℚ × ℕ)

/-- Leftmost minimal-cost element of a nonempty queue (`queue_.top()`). -/
def minElem : (ℚ × ℕ) → List (ℚ × ℕ) → ℚ × ℕ
  | best, [] => best
  | best, p :: rest => minElem (if p.1 < best.1 then p else best) rest

/-- Remove the first occurrence of an element from the queue. -/
def eraseFirst : List (ℚ × ℕ) → (ℚ × ℕ) → List (ℚ × ℕ)
  | [], _ => []
  | p :: rest, m => if p = m then rest else p :: eraseFirst rest m

/-- `RoutePlanner::getNextNode`: pop the lowest-cost element.  On an empty
queue (never reached: the loop guard checks emptiness first) returns a dummy. -/
def getNextNode (q : List (ℚ × ℕ)) : (ℚ × ℕ) × List (ℚ × ℕ) :=
  match q with
  | [] => ((0, 0), [])
  | p :: rest =>
    let m := minElem p rest
    (m, eraseFirst (p :: rest) m)

/-- `RoutePlanner::addNode`: push an element into the priority queue. -/
def addNode (st : PlannerState) (cost : ℚ) (i : ℕ) : PlannerState :=
  { st with queue := st.queue ++ [(cost, i)] }

/-- The relaxation test `potential_cost < neighbor->search_state.integrated_cost`:
against the +infinity sentinel (`none`) every cost is an improvement. -/
def improves (pc : ℚ) : Option ℚ → Bool
  | none => true
  | some d => pc < d

/-- The inner `for` loop over the edges of the popped node: price each edge
with `getTraversalCost` and relax it if the potential cost improves on the
neighbor's `integrated_cost`.  `curr_cost` is the popped cost, `tc` the current
value of the `traversal_cost` variable (which lives outside the loop in the
C++ and so persists from edge to edge).  Returns the final `traversal_cost`
value and state, or `.error` if `getTraversalCost` threw. -/
def expandEdges (scorer : EdgeScorerModel) (g : Graph) (goalId : ℕ)
    (blocked : List ℕ) (curr_cost : ℚ) :
    List Edge → ℚ → PlannerState → Except Unit (ℚ × PlannerState)
  | [], tc, st => .ok (tc, st)
  | edge :: rest, tc, st =>
    match getTraversalCost scorer g goalId blocked edge tc with
    | .error e => .error e
    | .ok (valid, tc1) =>
      if valid then
        let potential_cost := curr_cost + tc1
        if improves potential_cost (st.integrated_cost edge.endIdx) then
          let st1 : PlannerState :=
            { st with
              parent_edge := Function.update st.parent_edge edge.endIdx (some edge)
              integrated_cost :=
                Function.update st.integrated_cost edge.endIdx (some potential_cost)
              traversal_costs := Function.update st.traversal_costs edge.endIdx tc1 }
          expandEdges scorer g goalId blocked curr_cost rest tc1 (addNode st1 potential_cost edge.endIdx)
        else
          expandEdges scorer g goalId blocked curr_cost rest tc1 st
      else
        expandEdges scorer g goalId blocked curr_cost rest tc1 st

/-- The `while` loop of `RoutePlanner::findShortestGraphTraversal`.  `fuel` is
a structural bound on the remaining recursion depth: the loop is called with
`fuel = maxIter.toNat`, which the guard `iterations < maxIter` makes
sufficient, so the `fuel = 0` fallback is never reached.  Returns the value of
`iterations` and the state at loop exit (by emptied queue, exhausted iteration
bound, or the `break` on popping the goal). -/
def searchLoop (scorer : EdgeScorerModel) (g : Graph) (goalId : ℕ)
    (blocked : List ℕ) (maxIter : ℤ) :
    ℕ → ℤ → ℚ → PlannerState → Except Unit (ℤ × PlannerState)
  | fuel, iterations, tc, st =>
    if st.queue.isEmpty || !(iterations < maxIter : Bool) then
      .ok (iterations, st)
    else
      match fuel with
      | 0 => .ok (iterations, st)
      | fuel + 1 =>
        let iterations1 := iterations + 1
        let pop := getNextNode st.queue
        let curr_cost := pop.1.1
        let nodeIdx := pop.1.2
        let st1 : PlannerState := { st with queue := pop.2 }
        if (some curr_cost ≠ st1.integrated_cost nodeIdx : Bool) then
          searchLoop scorer g goalId blocked maxIter fuel iterations1 tc st1
        else if isGoal g goalId nodeIdx then
          .ok (iterations1, st1)
        else
          match expandEdges scorer g goalId blocked curr_cost (getEdges g nodeIdx) tc st1 with
          | .error e => .error e
          | .ok (tc1, st2) =>
            searchLoop scorer g goalId blocked maxIter fuel iterations1 tc1 st2

/-- The fully reset search state (`resetSearchStates` plus an empty queue).
`integrated_cost` is reset to the +infinity sentinel, modelled as `none`. -/
def resetState : PlannerState :=
  { integrated_cost := fun _ => none
    traversal_costs := fun _ => 0
    parent_edge := fun _ => none
    queue := [] }

/-- The state at the start of the expansion loop: everything reset, the start
node's `integrated_cost` set to 0, the queue seeded with the start node. -/
def initialState (start : ℕ) : PlannerState :=
  { resetState with
    integrated_cost := Function.update (fun _ => none) start (some 0)
    queue := [(0, start)] }

/-- `RoutePlanner::findShortestGraphTraversal`: reset the search states, seed
the queue with the start node at cost 0, run the expansion loop, clear the
queue, and raise `TimedOut` if the loop exited with
`iterations >= max_iterations_`. -/
def findShortestGraphTraversal (scorer : EdgeScorerModel) (g : Graph)
    (start goal : ℕ) (blocked : List ℕ) (maxIter : ℤ) :
    Except RouteError (ℤ × PlannerState) :=
  let goalId := (nodeOf g goal).nodeid
  match searchLoop scorer g goalId blocked maxIter maxIter.toNat 0 0 (initialState start) with
  | .error _ => .error .InvalidGraph
  | .ok (iterations, st) =>
    if maxIter ≤ iterations then .error .TimedOut
    else .ok (iterations, { st with queue := [] })

/-- The resulting route: ordered edge sequence start→goal, the start node
(as an index, modelling the stored `NodePtr`), and the total cost. -/
structure Route where
  edges : List Edge
  start_node : ℕ
  route_cost : ℚ
deriving DecidableEq

/-- The backtracking `while (parent_edge)` loop of `findRoute`: follow
`parent_edge->start->search_state.parent_edge` back-links, appending each edge
(the C++ `push_back`; the caller reverses).  `fuel` bounds the walk: the C++
loop would not terminate on a cyclic back-link chain, which the model reports
as `none`; the proofs show the chains the search builds are acyclic. -/
def backtrackAux (st : PlannerState) : ℕ → Option Edge → List Edge → Option (List Edge)
  | _, none, acc => some acc
  | 0, some _, _ => none
  | fuel + 1, some e, acc => backtrackAux st fuel (st.parent_edge e.startIdx) (acc ++ [e])

/-- `RoutePlanner::findRoute`: fail on an empty graph, run the graph
traversal, fail with `NoRoute` if the goal acquired no `parent_edge`, else
backtrack from the goal, reverse the edges, and report the goal's
`integrated_cost` as the route cost. -/
def findRoute (scorer : EdgeScorerModel) (g : Graph) (start goal : ℕ)
    (blocked : List ℕ) (maxIter : ℤ) : Except RouteError Route :=
  if g.isEmpty then .error .InvalidGraph
  else
    match findShortestGraphTraversal scorer g start goal blocked maxIter with
    | .error e => .error e
    | .ok (_, st) =>
      match st.parent_edge goal with
      | none => .error .NoRoute
      | some pe =>
        match backtrackAux st (g.length + 1) (some pe) [] with
        | none => .error .BacktrackDiverged
        | some edges =>
          .ok { edges := edges.reverse
                start_node := start
                route_cost := (st.integrated_cost goal).getD 0 }

/-- `RoutePlanner::configure`: read `max_iterations` (default 0) and map a
value of 0 to the largest representable `int`. -/
def configuredMaxIterations (max_iterations : ℤ) : ℤ :=
  if max_iterations = 0 then 2 ^ 31 - 1 else max_iterations

/-! ### AdjustEdgesScorer (closure / dynamic-penalty scorer) -/

/-- The mutable state of `AdjustEdgesScorer`: the closed-edge set
(`std::set<unsigned int>` as its membership function) and the dynamic-penalty
map (`std::unordered_map<unsigned int, float>` as an optional-valued
function). -/
structure AdjustEdgesScorer where
  closed_edges : ℕ → Bool
  dynamic_penalties : ℕ → Option ℚ

/-- A `nav2_msgs::srv::AdjustEdges` request: newly closed edge ids, newly
opened edge ids, and `(edgeid, cost)` adjustment pairs. -/
structure AdjustEdgesRequest where
  closed_edges : List ℕ
  opened_edges : List ℕ
  adjust_edges : List (ℕ × ℚ)

/-- `AdjustEdgesScorer::closedEdgesCb`: insert all closed ids, then erase the
opened ids that are present, then upsert every adjustment pair; the response's
`success` field (returned alongside the new state) is always set to true. -/
def AdjustEdgesScorer.closedEdgesCb (s : AdjustEdgesScorer)
    (req : AdjustEdgesRequest) : AdjustEdgesScorer × Bool :=
  let s1 := req.closed_edges.foldl
    (fun s e => { s with closed_edges := Function.update s.closed_edges e true }) s
  let s2 := req.opened_edges.foldl
    (fun s e =>
      if s.closed_edges e then
        { s with closed_edges := Function.update s.closed_edges e false }
      else s) s1
  let s3 := req.adjust_edges.foldl
    (fun s p =>
      { s with dynamic_penalties := Function.update s.dynamic_penalties p.1 (some p.2) }) s2
  (s3, true)

/-- `AdjustEdgesScorer::score`: reject a closed edge (leaving the cost output
at the caller-supplied value `cost`); otherwise write the dynamic penalty for
this edge id into the cost output if one is stored, and accept.  The scorer
only reads `edge->edgeid`, so the model takes the id directly. -/
def AdjustEdgesScorer.score (s : AdjustEdgesScorer) (edgeid : ℕ) (cost : ℚ) :
    Bool × ℚ :=
  if s.closed_edges edgeid then (false, cost)
  else
    match s.dynamic_penalties edgeid with
    | some c => (true, c)
    | none => (true, cost)

/-! ### CostmapScorer (occupancy-map line-sampling scorer) -/

/-- The external costmap handle (`nav2_costmap_2d::Costmap2D`): world-to-grid
conversion (failing off-map) and the cell cost sample (an `unsigned char`
read back as a float, so a value in `[0, 255]`). -/
structure Costmap where
  worldToMap : ℚ → ℚ → Option (ℕ × ℕ)
  getCost : ℕ → ℕ → ℚ

/-- The configuration of `CostmapScorer` (`CostmapScorer::configure`):
`use_maximum` (default true), `invalid_on_collision` (default true),
`invalid_off_map` (default true), `max_cost` (default 253), `weight`
(default 1). -/
structure CostmapScorerConfig where
  use_max : Bool
  invalid_on_collision : Bool
  invalid_off_map : Bool
  max_cost : ℚ
  weight : ℚ

/-- Modelled from the spec: the discrete line walk between two cells.
`nav2_util::LineIterator` is not among the sources; §4.4 describes it as a
"Bresenham-style rasterization" visiting each cell between the endpoints.
This is the classic integer Bresenham line, endpoints included; `fuel` is a
structural bound (`dx + dy` steps always reach the endpoint). -/
def bresenhamAux : ℕ → ℤ → ℤ → ℤ → ℤ → ℤ → ℤ → ℤ → ℤ → ℤ → List (ℤ × ℤ)
  | 0, x, y, _, _, _, _, _, _, _ => [(x, y)]
  | fuel + 1, x, y, x1, y1, dx, dy, sx, sy, err =>
    if x = x1 ∧ y = y1 then [(x, y)]
    else
      let e2 := 2 * err
      let xe := if e2 ≥ -dy then (x + sx, err - dy) else (x, err)
      let ye := if e2 ≤ dx then (y + sy, xe.2 + dx) else (y, xe.2)
      (x, y) :: bresenhamAux fuel xe.1 ye.1 x1 y1 dx dy sx sy ye.2

/-- Modelled from the spec: the cells visited by the line walk from
`(x0, y0)` to `(x1, y1)`. -/
def lineCells (x0 y0 x1 y1 : ℕ) : List (ℕ × ℕ) :=
  let dx : ℤ := |(x1 : ℤ) - (x0 : ℤ)|
  let dy : ℤ := |(y1 : ℤ) - (y0 : ℤ)|
  let sx : ℤ := if (x0 : ℤ) ≤ (x1 : ℤ) then 1 else -1
  let sy : ℤ := if (y0 : ℤ) ≤ (y1 : ℤ) then 1 else -1
  (bresenhamAux (dx + dy).toNat x0 y0 x1 y1 dx dy sx sy (dx - dy)).map
    fun c => (c.1.toNat, c.2.toNat)

/-- The sampling loop of `CostmapScorer::score` over the cost samples read
along the line, carrying `largest_cost`, `running_cost` and `idx`.  Returns
`none` for the in-loop `return false` (collision rejection), otherwise the
final values of the three accumulators.  Note the exact C++ conditions: the
collision check tests `point_cost >= max_cost_ && max_cost_ != 255.0 &&
invalid_on_collision_` (it is `max_cost_`, not the sample, that is compared
with the unknown sentinel), the sum `running_cost` takes every sample, and
only the `largest_cost` update excludes a sample equal to 255. -/
def costmapScoreLoop (cfg : CostmapScorerConfig) :
    List ℚ → ℚ → ℚ → ℕ → Option (ℚ × ℚ × ℕ)
  | [], largest, running, idx => some (largest, running, idx)
  | point_cost :: rest, largest, running, idx =>
    if cfg.max_cost ≤ point_cost ∧ cfg.max_cost ≠ 255 ∧ cfg.invalid_on_collision then
      none
    else
      costmapScoreLoop cfg rest
        (if largest < point_cost ∧ point_cost ≠ 255 then point_cost else largest)
        (running + point_cost) (idx + 1)

/-- `CostmapScorer::score`.  `costmap` is `none` when no costmap has been
received (`prepare` failed).  `startC`/`endC` are `edge->start->coords` and
`edge->end->coords`; `cost0` is the value held by the by-reference `cost`
argument on entry.  Returns the validity flag and the final value of that
reference. -/
def CostmapScorer.score (cfg : CostmapScorerConfig) (costmap : Option Costmap)
    (startC endC : Coords) (cost0 : ℚ) : Bool × ℚ :=
  match costmap with
  | none => (false, cost0)
  | some cm =>
    match cm.worldToMap startC.x startC.y, cm.worldToMap endC.x endC.y with
    | some p0, some p1 =>
      let samples := (lineCells p0.1 p0.2 p1.1 p1.2).map fun c => cm.getCost c.1 c.2
      match costmapScoreLoop cfg samples 0 0 0 with
      | none => (false, cost0)
      | some out =>
        if cfg.use_max then (true, cfg.weight * out.1 / cfg.max_cost)
        else (true, cfg.weight * out.2.1 / ((out.2.2 : ℚ) * cfg.max_cost))
    | _, _ =>
      if cfg.invalid_off_map then (false, cost0) else (true, cost0)

/-- Modelled from the spec: `EdgeScorer::score` (its implementation file is
not among the sources; §4.2 of the spec describes it).  Invoke every plugin in
list order, each receiving a fresh caller-supplied default cost of 0; the edge
is valid only if every plugin reports valid, short-circuiting on the first
invalid result; the total cost is the sum of the individual contributions. -/
def edgeScorerAggregate : List (ℚ → Bool × ℚ) → ℚ → Bool × ℚ
  | [], total => (true, total)
  | p :: rest, total =>
    let r := p 0
    if r.1 then edgeScorerAggregate rest (total + r.2) else (false, total)

/-! ### Specification-level notions used to state the claims -/

/-- A path through the graph: a chain of edges, each drawn from the neighbor
list of the node index it leaves, whose end index is where the next edge
leaves from.  `IsPath g v w es` says `es` leads from node index `v` to node
index `w`. -/
inductive IsPath (g : Graph) : ℕ → ℕ → List Edge → Prop
  | nil (v : ℕ) : IsPath g v v []
  | cons {v w : ℕ} (e : Edge) {es : List Edge} (he : e ∈ getEdges g v)
      (hlink : IsPath g e.endIdx w es) : IsPath g v w (e :: es)

/-- The cost of a path as priced by static edge costs (the pricing used when
no scorer plugins are configured). -/
def pathCost (es : List Edge) : ℚ := (es.map fun e => e.edge_cost.cost).sum

/-- Well-formed graph: every edge's stored start index is the node owning it,
and its end index is a node of the graph (in C++ these are pointers into the
same graph and hold by construction). -/
def WFGraph (g : Graph) : Prop :=
  ∀ i < g.length, ∀ e ∈ getEdges g i, e.startIdx = i ∧ e.endIdx < g.length

/-- Every static edge cost is strictly positive (the graph invariant of §3 of
the spec, checked by `getTraversalCost` only for the edges it visits). -/
def PosCosts (g : Graph) : Prop :=
  ∀ nd ∈ g, ∀ e ∈ nd.neighbors, 0 < e.edge_cost.cost

/-- Node ids are unique, so id-based goal detection coincides with the goal
index. -/
def UniqueIds (g : Graph) : Prop :=
  ∀ i < g.length, ∀ j < g.length, (nodeOf g i).nodeid = (nodeOf g j).nodeid → i = j

instance (g : Graph) : Decidable (WFGraph g) :=
  inferInstanceAs (Decidable
    (∀ i < g.length, ∀ e ∈ getEdges g i, e.startIdx = i ∧ e.endIdx < g.length))

instance (g : Graph) : Decidable (PosCosts g) :=
  inferInstanceAs (Decidable (∀ nd ∈ g, ∀ e ∈ nd.neighbors, 0 < e.edge_cost.cost))

instance (g : Graph) : Decidable (UniqueIds g) :=
  inferInstanceAs (Decidable
    (∀ i < g.length, ∀ j < g.length,
      (nodeOf g i).nodeid = (nodeOf g j).nodeid → i = j))

/-- The total number of edges of the graph. -/
def totalDeg (g : Graph) : ℕ :=
  Finset.sum (Finset.range g.length) fun i => (getEdges g i).length

/-- The blocked-id veto lets the edge pass: either no blocked id matches the
edge id or its end node id, or the end node carries the goal id (the veto is
ignored for goal-adjacent edges). -/
def edgeAllowed (g : Graph) (goalId : ℕ) (blocked : List ℕ) (e : Edge) : Prop :=
  (∀ id ∈ blocked, id ≠ e.edgeid ∧ id ≠ endNodeid g e) ∨ endNodeid g e = goalId

instance (g : Graph) (goalId : ℕ) (blocked : List ℕ) (e : Edge) :
    Decidable (edgeAllowed g goalId blocked e) :=
  inferInstanceAs (Decidable
    ((∀ id ∈ blocked, id ≠ e.edgeid ∧ id ≠ endNodeid g e) ∨ endNodeid g e = goalId))

/-- A path every edge of which passes the blocked-id veto. -/
def AllowedPath (g : Graph) (goalId : ℕ) (blocked : List ℕ) (v w : ℕ)
    (es : List Edge) : Prop :=
  IsPath g v w es ∧ ∀ e ∈ es, edgeAllowed g goalId blocked e

/-- The last value assigned to an edge id by the `adjust_edges` list of a
request processed front to back (last write wins). -/
def lastAssign : List (ℕ × ℚ) → ℕ → Option ℚ
  | [], _ => none
  | p :: rest, id =>
    match lastAssign rest id with
    | some c => some c
    | none => if p.1 = id then some p.2 else none

/-- The running maximum the costmap sampling loop computes: the fold of `max`
over the samples different from the unknown sentinel 255, from initial 0. -/
def maxExcludingUnknown (samples : List ℚ) : ℚ :=
  (samples.filter fun s => s ≠ 255).foldl max 0

/-! ### Concrete instances for counterexamples and witnesses -/

/-- An edge scorer with no plugins configured (static costs price every
edge). -/
def noPluginScorer : EdgeScorerModel := ⟨0, fun _ c => (true, c)⟩

/-- Shortcut for building an overridable edge. -/
def mkEdge (id s e : ℕ) (c : ℚ) : Edge := ⟨id, s, e, ⟨c, true⟩⟩

/-- A graph with a negative-cost edge: direct edge 0→2 of cost 1, and a
two-edge path 0→1→2 of cost 2 + (-10) = -8. -/
def gNeg : Graph :=
  [⟨0, ⟨0, 0⟩, [mkEdge 10 0 2 1, mkEdge 11 0 1 2]⟩,
   ⟨1, ⟨0, 0⟩, [mkEdge 12 1 2 (-10)]⟩,
   ⟨2, ⟨0, 0⟩, []⟩]

/-- The spec §8 scenario: chain 0→1→2→3 of cost 1 each plus a direct edge
0→3 of cost 5. -/
def gChain : Graph :=
  [⟨0, ⟨0, 0⟩, [mkEdge 20 0 1 1, mkEdge 23 0 3 5]⟩,
   ⟨1, ⟨0, 0⟩, [mkEdge 21 1 2 1]⟩,
   ⟨2, ⟨0, 0⟩, [mkEdge 22 2 3 1]⟩,
   ⟨3, ⟨0, 0⟩, []⟩]

/-- A single-node graph whose node is both start and goal. -/
def gOne : Graph := [⟨0, ⟨0, 0⟩, []⟩]

/-- Two nodes joined by one edge of cost 1. -/
def gTwo : Graph := [⟨0, ⟨0, 0⟩, [mkEdge 30 0 1 1]⟩, ⟨1, ⟨0, 0⟩, []⟩]

/-- A fork: 0→1 of cost 1 and 0→2 of cost 5.  Searching 0→1 pops the goal on
iteration 2 with the queue still holding the entry for node 2. -/
def gFork : Graph :=
  [⟨0, ⟨0, 0⟩, [mkEdge 50 0 1 1, mkEdge 51 0 2 5]⟩,
   ⟨1, ⟨0, 0⟩, []⟩, ⟨2, ⟨0, 0⟩, []⟩]

/-- A non-overridable edge of static cost -1 (charged as is by the code). -/
def negStaticEdge : Edge := ⟨40, 0, 1, ⟨-1, false⟩⟩

/-- A non-overridable edge of static cost 0 (the only value the code
rejects). -/
def zeroStaticEdge : Edge := ⟨41, 0, 1, ⟨0, false⟩⟩

/-- A costmap whose world-to-grid conversion always succeeds at cell (0,0)
and whose every cell holds the unknown sentinel cost 255. -/
def cmAll255 : Costmap := ⟨fun _ _ => some (0, 0), fun _ _ => 255⟩

/-- A costmap whose world-to-grid conversion always fails (everything is
off-map). -/
def cmOffMap : Costmap := ⟨fun _ _ => none, fun _ _ => 0⟩

/-- The default costmap scorer configuration (`use_maximum = true`,
`invalid_on_collision = true`, `invalid_off_map = true`, `max_cost = 253`,
`weight = 1`). -/
def defaultCostmapConfig : CostmapScorerConfig := ⟨true, true, true, 253, 1⟩

/-- The empty closure/penalty state (`configure` clears both containers). -/
def emptyAdjustState : AdjustEdgesScorer := ⟨fun _ => false, fun _ => none⟩

/-- A closure/penalty state with edge 5 closed and a penalty of 9 on
edge 7. -/
def exAdjustState : AdjustEdgesScorer :=
  ⟨fun n => n == 5, fun n => if n == 7 then some 9 else none⟩

/-- Reachability at a given cost: some path from `start` to `v`, every edge of
which passes the blocked-id veto, has exactly cost `c`. -/
def ReachCost (g : Graph) (goalId : ℕ) (blocked : List ℕ) (start v : ℕ)
    (c : ℚ) : Prop :=
  ∃ es, IsPath g start v es ∧ (∀ e ∈ es, edgeAllowed g goalId blocked e) ∧
    pathCost es = c

/-- Whether a node's `integrated_cost` is set and at most `bound` (the
termination measure of the backtracking walk). -/
def dAtMost (st : PlannerState) (bound : ℚ) (i : ℕ) : Bool :=
  match st.integrated_cost i with
  | none => false
  | some c => c ≤ bound

/-- The queue-independent part of the search-loop invariant.  `T` is the set
of settled nodes (popped at their final `integrated_cost`); `R ⊆ T` is the
part whose outgoing non-vetoed edges have all been relaxed (`R = T` between
iterations; during an expansion the node being expanded is settled but only
partially relaxed).  `integrated_cost` values are realized by actual
veto-free paths; settled values are lower bounds on every veto-free path from
the start; parent back-links record exact one-step cost decompositions whose
source is settled, and only the start lacks one. -/
structure ChainInv (g : Graph) (goalId : ℕ) (blocked : List ℕ) (start : ℕ)
    (T R : Finset ℕ) (st : PlannerState) : Prop where
  sound : ∀ v c, st.integrated_cost v = some c → ReachCost g goalId blocked start v c
  dstart : st.integrated_cost start = some 0
  pathlb : ∀ u ∈ T, ∀ cu, st.integrated_cost u = some cu →
    ∀ es, IsPath g start u es → (∀ e ∈ es, edgeAllowed g goalId blocked e) →
      cu ≤ pathCost es
  relaxed : ∀ u ∈ R, ∀ cu, st.integrated_cost u = some cu →
    ∀ e ∈ getEdges g u, edgeAllowed g goalId blocked e →
      ∃ cx, st.integrated_cost e.endIdx = some cx ∧ cx ≤ cu + e.edge_cost.cost
  sbound : ∀ u ∈ T, u < g.length ∧ (st.integrated_cost u).isSome
  dbound : ∀ v, (st.integrated_cost v).isSome → v < g.length
  parent : ∀ v e, st.parent_edge v = some e →
    e.endIdx = v ∧ e ∈ getEdges g e.startIdx ∧ e.startIdx ∈ T ∧
    edgeAllowed g goalId blocked e ∧
    ∃ cu, st.integrated_cost e.startIdx = some cu ∧
      st.integrated_cost v = some (cu + e.edge_cost.cost)
  pnone : ∀ v, (st.integrated_cost v).isSome → st.parent_edge v = none → v = start

/-- The queue-dependent part of the search-loop invariant: every unsettled
node with a cost has a live (matching) queue entry; entries never undercut
the recorded cost; settled nodes have only stale entries; and at most one
live entry exists per node. -/
structure QInv (g : Graph) (T : Finset ℕ) (st : PlannerState) : Prop where
  cover : ∀ v c, st.integrated_cost v = some c → v ∈ T ∨ (c, v) ∈ st.queue
  qle : ∀ p ∈ st.queue, ∃ c, st.integrated_cost p.2 = some c ∧ c ≤ p.1
  fresh : ∀ u ∈ T, ∀ c, (c, u) ∈ st.queue → st.integrated_cost u ≠ some c
  uniqm : ∀ v c, st.integrated_cost v = some c →
    st.queue.countP (fun p => p = (c, v)) ≤ 1

/-- The exit of the expansion loop as observed by the error classification:
the final iteration count paired with the goal node's `parent_edge`. -/
def loopExit (scorer : EdgeScorerModel) (g : Graph) (start goal : ℕ)
    (blocked : List ℕ) (maxIter : ℤ) : Except Unit (ℤ × Option Edge) :=
  (searchLoop scorer g (nodeOf g goal).nodeid blocked maxIter maxIter.toNat 0 0
      (initialState start)).map fun p => (p.1, p.2.parent_edge goal)

deriving instance DecidableEq for Except

attribute [local semireducible] Rat.add Rat.mul Rat.sub Rat.inv

/-! ## Claims about the AdjustEdgesScorer -/

/-- C5: for every edge id and caller-supplied default cost, the
closure/penalty scorer's `score` returns invalid with the cost output left at
the caller-supplied value when the edge id is closed; returns valid with the
mapped override value when the id is open and has a penalty entry; and
returns valid with the cost unchanged when the id is neither closed nor in
the penalty map. -/
theorem claim_C5 (s : AdjustEdgesScorer) (edgeid : ℕ) (cost : ℚ) :
    (s.closed_edges edgeid = true → s.score edgeid cost = (false, cost)) ∧
    (s.closed_edges edgeid = false → ∀ c, s.dynamic_penalties edgeid = some c →
      s.score edgeid cost = (true, c)) ∧
    (s.closed_edges edgeid = false → s.dynamic_penalties edgeid = none →
      s.score edgeid cost = (true, cost)) := by
  refine ⟨fun hc => ?_, fun hc c hp => ?_, fun hc hp => ?_⟩
  · simp [AdjustEdgesScorer.score, hc]
  · simp [AdjustEdgesScorer.score, hc, hp]
  · simp [AdjustEdgesScorer.score, hc, hp]

/-- Witness for C5: the three cases evaluated on a concrete scorer state
(edge 5 closed, penalty 9 on edge 7, edge 8 untouched). -/
theorem claim_C5_witness :
    exAdjustState.score 5 3 = (false, 3) ∧ exAdjustState.score 7 3 = (true, 9) ∧
      exAdjustState.score 8 3 = (true, 3) :=
  ⟨(claim_C5 exAdjustState 5 3).1 (by decide),
   (claim_C5 exAdjustState 7 3).2.1 (by decide) 9 (by decide),
   (claim_C5 exAdjustState 8 3).2.2 (by decide) (by decide)⟩

/-! ## Claims about the CostmapScorer -/

/-- C7: when either endpoint's world-to-grid conversion fails, the costmap
scorer rejects the edge if `invalid_off_map` is set, and otherwise accepts it
leaving the cost output at the caller-supplied value — hence, composed with
the aggregator's fresh default of 0, with a contributed cost of zero. -/
theorem claim_C7 (cfg : CostmapScorerConfig) (cm : Costmap)
    (startC endC : Coords) (cost0 : ℚ)
    (hfail : cm.worldToMap startC.x startC.y = none ∨
      cm.worldToMap endC.x endC.y = none) :
    (cfg.invalid_off_map = true →
      CostmapScorer.score cfg (some cm) startC endC cost0 = (false, cost0)) ∧
    (cfg.invalid_off_map = false →
      CostmapScorer.score cfg (some cm) startC endC cost0 = (true, cost0) ∧
      edgeScorerAggregate
        [fun c => CostmapScorer.score cfg (some cm) startC endC c] 0 =
        (true, 0)) := by
  have hscore : ∀ c : ℚ, CostmapScorer.score cfg (some cm) startC endC c =
      if cfg.invalid_off_map then (false, c) else (true, c) := by
    intro c
    rcases hfail with h | h
    · simp [CostmapScorer.score, h]
    · cases h0 : cm.worldToMap startC.x startC.y <;>
        simp [CostmapScorer.score, h0, h]
  constructor
  · intro hoff
    simp [hscore, hoff]
  · intro hoff
    refine ⟨by simp [hscore, hoff], ?_⟩
    simp [edgeScorerAggregate, hscore, hoff]

/-- Witness for C7: both off-map policies evaluated on a costmap whose
conversion always fails. -/
theorem claim_C7_witness :
    CostmapScorer.score defaultCostmapConfig (some cmOffMap) ⟨0, 0⟩ ⟨0, 0⟩ 4 =
      (false, 4) ∧
    CostmapScorer.score ⟨true, true, false, 253, 1⟩ (some cmOffMap) ⟨0, 0⟩ ⟨0, 0⟩ 4 =
      (true, 4) :=
  ⟨(claim_C7 defaultCostmapConfig cmOffMap ⟨0, 0⟩ ⟨0, 0⟩ 4 (Or.inl rfl)).1 rfl,
   ((claim_C7 ⟨true, true, false, 253, 1⟩ cmOffMap ⟨0, 0⟩ ⟨0, 0⟩ 4 (Or.inl rfl)).2 rfl).1⟩

/-! ## Claims about getTraversalCost -/

/-- C2 (amended): an edge priced by its static cost (non-overridable, or no
plugins configured, and not vetoed by the blocked list) fails with the
`InvalidGraph` throw exactly when that static cost is exactly 0; every
nonzero static cost — including negative ones — is accepted and returned as
is.  (The claim's "non-positive" is refuted by `claim_C2_counterexample`.) -/
theorem claim_C2 (scorer : EdgeScorerModel) (g : Graph) (goalId : ℕ)
    (blocked : List ℕ) (edge : Edge) (score0 : ℚ)
    (hstatic : edge.edge_cost.overridable = false ∨ scorer.numPlugins = 0)
    (hnb : ((blocked.any fun id => id == edge.edgeid || id == endNodeid g edge) &&
      !isGoal g goalId edge.endIdx) = false) :
    (edge.edge_cost.cost = 0 →
      getTraversalCost scorer g goalId blocked edge score0 = .error ()) ∧
    (edge.edge_cost.cost ≠ 0 →
      getTraversalCost scorer g goalId blocked edge score0 =
        .ok (true, edge.edge_cost.cost)) := by
  have hcond : (!edge.edge_cost.overridable || scorer.numPlugins == 0) = true := by
    rcases hstatic with h | h <;> simp [h]
  constructor
  · intro hzero
    simp [getTraversalCost, hnb, hcond, hzero]
  · intro hnz
    simp [getTraversalCost, hnb, hcond, hnz]

/-- Counterexample to C5's sibling C2 as stated: a non-overridable edge with
the strictly negative static cost -1 is priced successfully (the code only
rejects a static cost equal to 0), where the claim demands the `InvalidGraph`
failure for every non-positive static cost. -/
theorem claim_C2_counterexample :
    negStaticEdge.edge_cost.cost ≤ 0 ∧
    getTraversalCost noPluginScorer gTwo 99 [] negStaticEdge 0 =
      .ok (true, -1) := by
  constructor
  · decide
  · decide

/-- Witness for C2: the zero-cost edge throws, an edge of static cost 2 is
priced at 2. -/
theorem claim_C2_witness :
    getTraversalCost noPluginScorer gTwo 99 [] zeroStaticEdge 0 = .error () ∧
    getTraversalCost noPluginScorer gTwo 99 [] ⟨42, 0, 1, ⟨2, false⟩⟩ 0 =
      .ok (true, 2) :=
  ⟨(claim_C2 noPluginScorer gTwo 99 [] zeroStaticEdge 0 (Or.inl rfl) (by decide)).1
    (by decide),
   (claim_C2 noPluginScorer gTwo 99 [] ⟨42, 0, 1, ⟨2, false⟩⟩ 0 (Or.inl rfl)
    (by decide)).2 (by decide)⟩

/-- C10: the blocked-id veto is evaluated before the static-cost validity
check: a blocked edge whose end is not the goal is skipped (returns false,
cost output untouched) even when it is non-overridable with static cost 0,
while the same edge with an empty blocked list raises the `InvalidGraph`
throw. -/
theorem claim_C10 (scorer : EdgeScorerModel) (g : Graph) (goalId : ℕ)
    (blocked : List ℕ) (edge : Edge) (score0 : ℚ)
    (hblocked : (blocked.any fun id => id == edge.edgeid || id == endNodeid g edge) = true)
    (hnotgoal : isGoal g goalId edge.endIdx = false) :
    getTraversalCost scorer g goalId blocked edge score0 = .ok (false, score0) ∧
    (edge.edge_cost.overridable = false → edge.edge_cost.cost = 0 →
      getTraversalCost scorer g goalId [] edge score0 = .error ()) := by
  constructor
  · simp [getTraversalCost, hblocked, hnotgoal]
  · intro hov hzero
    simp [getTraversalCost, hov, hzero]

/-- Witness for C10: the blocked zero-cost non-overridable edge is silently
skipped with the cost output left at 7, and unblocked it throws. -/
theorem claim_C10_witness :
    getTraversalCost noPluginScorer gTwo 99 [41] zeroStaticEdge 7 =
      .ok (false, 7) ∧
    getTraversalCost noPluginScorer gTwo 99 [] zeroStaticEdge 7 = .error () :=
  ⟨(claim_C10 noPluginScorer gTwo 99 [41] zeroStaticEdge 7 (by decide) (by decide)).1,
   (claim_C10 noPluginScorer gTwo 99 [41] zeroStaticEdge 7 (by decide) (by decide)).2
    rfl rfl⟩

/-! ## The control-channel handler (C8) -/

theorem foldl_close_closed (l : List ℕ) (s : AdjustEdgesScorer) (id : ℕ) :
    (l.foldl (fun s e =>
        { s with closed_edges := Function.update s.closed_edges e true }) s).closed_edges id =
      if id ∈ l then true else s.closed_edges id := by
  induction l generalizing s with
  | nil => simp
  | cons e rest ih =>
    simp only [List.foldl_cons, ih, List.mem_cons]
    by_cases he : id = e
    · subst he
      simp [Function.update_same]
    · by_cases hr : id ∈ rest <;> simp [hr, he, Function.update_noteq he]

theorem foldl_close_pen (l : List ℕ) (s : AdjustEdgesScorer) (id : ℕ) :
    (l.foldl (fun s e =>
        { s with closed_edges := Function.update s.closed_edges e true }) s).dynamic_penalties id =
      s.dynamic_penalties id := by
  induction l generalizing s with
  | nil => rfl
  | cons e rest ih => simp [ih]

theorem foldl_open_closed (l : List ℕ) (s : AdjustEdgesScorer) (id : ℕ) :
    (l.foldl (fun s e =>
        if s.closed_edges e then
          { s with closed_edges := Function.update s.closed_edges e false }
        else s) s).closed_edges id =
      if id ∈ l then false else s.closed_edges id := by
  induction l generalizing s with
  | nil => simp
  | cons e rest ih =>
    simp only [List.foldl_cons, ih, List.mem_cons]
    have hstep : ∀ x, (if s.closed_edges e then
        { s with closed_edges := Function.update s.closed_edges e false }
        else s).closed_edges x = if x = e then false else s.closed_edges x := by
      intro x
      by_cases hc : s.closed_edges e = true
      · rw [if_pos hc]
        by_cases hx : x = e
        · subst hx
          simp [Function.update_same]
        · simp [Function.update_noteq hx, hx]
      · have hc' : s.closed_edges e = false := by simpa using hc
        rw [if_neg (by simp [hc'])]
        by_cases hx : x = e
        · subst hx
          simp [hc']
        · simp [hx]
    by_cases hr : id ∈ rest
    · simp [hr]
    · simp [hr, hstep]

theorem foldl_open_pen (l : List ℕ) (s : AdjustEdgesScorer) (id : ℕ) :
    (l.foldl (fun s e =>
        if s.closed_edges e then
          { s with closed_edges := Function.update s.closed_edges e false }
        else s) s).dynamic_penalties id = s.dynamic_penalties id := by
  induction l generalizing s with
  | nil => rfl
  | cons e rest ih =>
    by_cases hc : s.closed_edges e <;> simp [hc, ih]

theorem foldl_adjust_pen (l : List (ℕ × ℚ)) (s : AdjustEdgesScorer) (id : ℕ) :
    (l.foldl (fun s p =>
        { s with dynamic_penalties := Function.update s.dynamic_penalties p.1 (some p.2) }) s).dynamic_penalties id =
      match lastAssign l id with
      | some c => some c
      | none => s.dynamic_penalties id := by
  induction l generalizing s with
  | nil => rfl
  | cons p rest ih =>
    simp only [List.foldl_cons, ih, lastAssign]
    cases hrest : lastAssign rest id with
    | some c => rfl
    | none =>
      by_cases hp : p.1 = id
      · subst hp
        simp [Function.update_same]
      · simp [hp, Function.update_noteq (fun h => hp h.symm)]

theorem foldl_adjust_closed (l : List (ℕ × ℚ)) (s : AdjustEdgesScorer) (id : ℕ) :
    (l.foldl (fun s p =>
        { s with dynamic_penalties := Function.update s.dynamic_penalties p.1 (some p.2) }) s).closed_edges id =
      s.closed_edges id := by
  induction l generalizing s with
  | nil => rfl
  | cons p rest ih => simp [ih]

theorem closedEdgesCb_closed (s : AdjustEdgesScorer) (req : AdjustEdgesRequest)
    (id : ℕ) :
    (s.closedEdgesCb req).1.closed_edges id =
      if id ∈ req.opened_edges then false
      else if id ∈ req.closed_edges then true
      else s.closed_edges id := by
  simp only [AdjustEdgesScorer.closedEdgesCb, foldl_adjust_closed,
    foldl_open_closed, foldl_close_closed]

theorem closedEdgesCb_pen (s : AdjustEdgesScorer) (req : AdjustEdgesRequest)
    (id : ℕ) :
    (s.closedEdgesCb req).1.dynamic_penalties id =
      match lastAssign req.adjust_edges id with
      | some c => some c
      | none => s.dynamic_penalties id := by
  simp only [AdjustEdgesScorer.closedEdgesCb, foldl_adjust_pen,
    foldl_open_pen, foldl_close_pen]

/-- C8 (amended): after a control-channel request, every id in the closed
list that is not also in the opened list of the same request is in the closed
set; every id in the opened list is absent from the closed set — including
ids the same request also closes, since removals are processed after
insertions; ids in neither list keep their previous closure state; every
adjustment pair is upserted with last write winning within the request, and
ids without an adjustment keep their previous penalty; the response always
reports success; no id is validated against the graph (untouched ids are
simply preserved, whatever they are).  (The claim's unconditional "every id in
the closed list is a member" is refuted by `claim_C8_counterexample`.) -/
theorem claim_C8 (s : AdjustEdgesScorer) (req : AdjustEdgesRequest) :
    (s.closedEdgesCb req).2 = true ∧
    (∀ id ∈ req.closed_edges, id ∉ req.opened_edges →
      (s.closedEdgesCb req).1.closed_edges id = true) ∧
    (∀ id ∈ req.opened_edges, (s.closedEdgesCb req).1.closed_edges id = false) ∧
    (∀ id, id ∉ req.closed_edges → id ∉ req.opened_edges →
      (s.closedEdgesCb req).1.closed_edges id = s.closed_edges id) ∧
    (∀ id c, lastAssign req.adjust_edges id = some c →
      (s.closedEdgesCb req).1.dynamic_penalties id = some c) ∧
    (∀ id, lastAssign req.adjust_edges id = none →
      (s.closedEdgesCb req).1.dynamic_penalties id = s.dynamic_penalties id) := by
  refine ⟨rfl, fun id hc ho => ?_, fun id ho => ?_, fun id hc ho => ?_,
    fun id c ha => ?_, fun id ha => ?_⟩
  · simp [closedEdgesCb_closed, hc, ho]
  · simp [closedEdgesCb_closed, ho]
  · simp [closedEdgesCb_closed, hc, ho]
  · simp [closedEdgesCb_pen, ha]
  · simp [closedEdgesCb_pen, ha]

/-- Counterexample to C8 as stated: an id listed both as closed and as opened
in the same request ends up absent from the closed set (opened ids are erased
after closed ids are inserted), where the claim asserts that every id in the
closed list is a member of the closed set. -/
theorem claim_C8_counterexample :
    (5 ∈ ([5] : List ℕ)) ∧
    (emptyAdjustState.closedEdgesCb ⟨[5], [5], []⟩).1.closed_edges 5 = false := by
  constructor
  · decide
  · decide

/-- Witness for C8: a request closing {1, 2}, opening {2, 3} and adjusting
edge 4 twice, applied to the empty state. -/
theorem claim_C8_witness :
    (emptyAdjustState.closedEdgesCb ⟨[1, 2], [2, 3], [(4, 5), (4, 6)]⟩).1.closed_edges 1 = true ∧
    (emptyAdjustState.closedEdgesCb ⟨[1, 2], [2, 3], [(4, 5), (4, 6)]⟩).1.closed_edges 2 = false ∧
    (emptyAdjustState.closedEdgesCb ⟨[1, 2], [2, 3], [(4, 5), (4, 6)]⟩).1.dynamic_penalties 4 = some 6 ∧
    (emptyAdjustState.closedEdgesCb ⟨[1, 2], [2, 3], [(4, 5), (4, 6)]⟩).2 = true :=
  ⟨(claim_C8 emptyAdjustState ⟨[1, 2], [2, 3], [(4, 5), (4, 6)]⟩).2.1 1 (by decide)
    (by decide),
   (claim_C8 emptyAdjustState ⟨[1, 2], [2, 3], [(4, 5), (4, 6)]⟩).2.2.1 2 (by decide),
   (claim_C8 emptyAdjustState ⟨[1, 2], [2, 3], [(4, 5), (4, 6)]⟩).2.2.2.2.1 4 6 (by decide),
   (claim_C8 emptyAdjustState ⟨[1, 2], [2, 3], [(4, 5), (4, 6)]⟩).1⟩

/-! ## The costmap sampling loop (C6) -/

theorem costmapScoreLoop_none_iff (cfg : CostmapScorerConfig) (samples : List ℚ) :
    ∀ (l r : ℚ) (i : ℕ),
      costmapScoreLoop cfg samples l r i = none ↔
        (cfg.invalid_on_collision = true ∧ cfg.max_cost ≠ 255 ∧
          ∃ s ∈ samples, cfg.max_cost ≤ s) := by
  induction samples with
  | nil => simp [costmapScoreLoop]
  | cons pc rest ih =>
    intro l r i
    by_cases hcond : cfg.max_cost ≤ pc ∧ cfg.max_cost ≠ 255 ∧ cfg.invalid_on_collision
    · simp only [costmapScoreLoop, if_pos hcond]
      refine ⟨fun _ => ⟨hcond.2.2, hcond.2.1, pc, List.mem_cons_self pc rest, hcond.1⟩,
        fun _ => trivial⟩
    · simp only [costmapScoreLoop, if_neg hcond, ih]
      constructor
      · rintro ⟨h1, h2, s, hs, h3⟩
        exact ⟨h1, h2, s, List.mem_cons_of_mem pc hs, h3⟩
      · rintro ⟨h1, h2, s, hs, h3⟩
        rcases List.mem_cons.mp hs with h | h
        · exact absurd ⟨h ▸ h3, h2, h1⟩ hcond
        · exact ⟨h1, h2, s, h, h3⟩

theorem costmapScoreLoop_some (cfg : CostmapScorerConfig) (samples : List ℚ) :
    ∀ (l r : ℚ) (i : ℕ) (out : ℚ × ℚ × ℕ),
      costmapScoreLoop cfg samples l r i = some out →
        out.1 = (samples.filter fun s => s ≠ 255).foldl max l ∧
        out.2.1 = r + samples.sum ∧ out.2.2 = i + samples.length := by
  induction samples with
  | nil =>
    intro l r i out h
    simp only [costmapScoreLoop, Option.some.injEq] at h
    subst h
    simp
  | cons pc rest ih =>
    intro l r i out h
    simp only [costmapScoreLoop] at h
    split at h
    · exact absurd h (by simp)
    · obtain ⟨h1, h2, h3⟩ := ih _ _ _ _ h
      refine ⟨?_, ?_, ?_⟩
      · by_cases h255 : pc = 255
        · have hacc : (if l < pc ∧ pc ≠ 255 then pc else l) = l := by simp [h255]
          rw [h1, hacc, List.filter_cons_of_neg (by simp [h255])]
        · have hacc : (if l < pc ∧ pc ≠ 255 then pc else l) = max l pc := by
            rcases lt_or_ge l pc with hlt | hge
            · simp [hlt, h255, max_eq_right hlt.le]
            · have hnot : ¬(l < pc ∧ pc ≠ 255) := fun hh => absurd hh.1 (not_lt.mpr hge)
              simp [hnot, max_eq_left hge]
          rw [h1, hacc, List.filter_cons_of_pos (by simp [h255]), List.foldl_cons]
      · rw [h2, List.sum_cons]
        ring
      · rw [h3, List.length_cons]
        omega

/-- C6 (amended): in the costmap sampling loop, a sample equal to the unknown
sentinel 255 is excluded only from the running maximum.  The collision
rejection compares `max_cost` itself — not the sample — with 255: the loop
rejects exactly when `invalid_on_collision` is set, `max_cost ≠ 255`, and
some sample reaches `max_cost` (so with the default `max_cost = 253` an
unknown 255 sample does trigger rejection), and the running sum and count
feeding the mean include every sample, 255 included.  (The claim's exclusion
of 255 from the lethal check and from the accumulation is refuted by
`claim_C6_counterexample`.) -/
theorem claim_C6 (cfg : CostmapScorerConfig) (samples : List ℚ) :
    (costmapScoreLoop cfg samples 0 0 0 = none ↔
      (cfg.invalid_on_collision = true ∧ cfg.max_cost ≠ 255 ∧
        ∃ s ∈ samples, cfg.max_cost ≤ s)) ∧
    (∀ out, costmapScoreLoop cfg samples 0 0 0 = some out →
      out.1 = maxExcludingUnknown samples ∧
      out.2.1 = samples.sum ∧ out.2.2 = samples.length) := by
  refine ⟨costmapScoreLoop_none_iff cfg samples 0 0 0, fun out h => ?_⟩
  obtain ⟨h1, h2, h3⟩ := costmapScoreLoop_some cfg samples 0 0 0 out h
  exact ⟨h1, by simpa using h2, by simpa using h3⟩

/-- Counterexample to C6 as stated: with the default configuration
(`max_cost = 253`, `invalid_on_collision = true`) a line whose only sample is
the unknown sentinel 255 is rejected — the sentinel is not excluded from the
lethal check — and with collision rejection off and mean aggregation the
sentinel is included in the accumulation, yielding 255/253 instead of an
excluded-sample result. -/
theorem claim_C6_counterexample :
    CostmapScorer.score defaultCostmapConfig (some cmAll255) ⟨0, 0⟩ ⟨0, 0⟩ 0 =
      (false, 0) ∧
    CostmapScorer.score ⟨false, false, true, 253, 1⟩ (some cmAll255) ⟨0, 0⟩ ⟨0, 0⟩ 0 =
      (true, 255 / 253) := by
  constructor
  · decide
  · decide

/-- Witness for C6: rejection on a concrete 255 sample via the iff, and the
accumulator characterization on a concrete sample list. -/
theorem claim_C6_witness :
    costmapScoreLoop defaultCostmapConfig [255] 0 0 0 = none ∧
    maxExcludingUnknown [100, 255, 50] = 100 ∧
    costmapScoreLoop ⟨true, false, true, 253, 1⟩ [100, 255, 50] 0 0 0 =
      some (100, 405, 3) :=
  ⟨(claim_C6 defaultCostmapConfig [255]).1.mpr
    ⟨rfl, by decide, 255, by decide, by decide⟩,
   by decide,
   by decide⟩

/-! ## Error classification of the search (C3) -/

/-- Counterexample to C3 as stated: on the fork graph with bound 2 the goal
is popped on iteration 2 (the run completes in 2 iterations with the queue
still nonempty, as the bound-3 run shows), yet the search raises the timeout
error because `iterations >= max_iterations` holds at loop exit. -/
theorem claim_C3_counterexample :
    findRoute noPluginScorer gFork 0 1 [] 2 = .error .TimedOut ∧
    loopExit noPluginScorer gFork 0 1 [] 3 = .ok (2, some (mkEdge 50 0 1 1)) ∧
    findRoute noPluginScorer gFork 0 1 [] 3 =
      .ok ⟨[mkEdge 50 0 1 1], 0, 1⟩ := by
  refine ⟨by decide, by decide, by decide⟩


/-- C3 (amended): the search fails with the timeout error exactly when the
expansion loop exits with `iterations >= max_iterations` — including the runs
in which the goal is popped on the very iteration that reaches the bound —
and fails with the no-route error exactly when the loop exits below the bound
with no `parent_edge` recorded on the goal.  (The claim's "a search that pops
the goal never raises the timeout error" is refuted by
`claim_C3_counterexample`.) -/
theorem claim_C3 (scorer : EdgeScorerModel) (g : Graph) (start goal : ℕ)
    (blocked : List ℕ) (maxIter : ℤ) (hg : g ≠ []) :
    (findRoute scorer g start goal blocked maxIter = .error .TimedOut ↔
      ∃ r, loopExit scorer g start goal blocked maxIter = .ok r ∧ maxIter ≤ r.1) ∧
    (findRoute scorer g start goal blocked maxIter = .error .NoRoute ↔
      ∃ r, loopExit scorer g start goal blocked maxIter = .ok r ∧
        r.1 < maxIter ∧ r.2 = none) := by
  have hne : g.isEmpty = false := by
    cases g with
    | nil => exact absurd rfl hg
    | cons a l => rfl
  cases hloop : searchLoop scorer g (nodeOf g goal).nodeid blocked maxIter
      maxIter.toNat 0 0 (initialState start) with
  | error e =>
    simp [findRoute, findShortestGraphTraversal, loopExit, hne, hloop, Except.map]
  | ok p =>
    obtain ⟨i, st⟩ := p
    by_cases htime : maxIter ≤ i
    · constructor
      · simp only [findRoute, findShortestGraphTraversal, loopExit, hne, hloop,
          if_pos htime, Except.map]
        exact ⟨fun _ => ⟨(i, st.parent_edge goal), rfl, htime⟩, fun _ => rfl⟩
      · simp only [findRoute, findShortestGraphTraversal, loopExit, hne, hloop,
          if_pos htime, Except.map]
        constructor
        · intro h
          exact absurd h (by simp)
        · rintro ⟨r, hr, hlt, _⟩
          obtain rfl : (i, st.parent_edge goal) = r := by simpa using hr
          exact absurd htime (not_le.mpr hlt)
    · cases hpe : st.parent_edge goal with
      | none =>
        constructor
        · simp only [findRoute, findShortestGraphTraversal, loopExit, hne, hloop,
            if_neg htime, Except.map, hpe]
          constructor
          · intro h
            exact absurd h (by simp)
          · rintro ⟨r, hr, hle⟩
            obtain rfl : (i, (none : Option Edge)) = r := by simpa using hr
            exact absurd hle htime
        · simp only [findRoute, findShortestGraphTraversal, loopExit, hne, hloop,
            if_neg htime, Except.map, hpe]
          exact ⟨fun _ => ⟨(i, none), rfl, not_le.mp htime, rfl⟩, fun _ => rfl⟩
      | some pe =>
        cases hbt : backtrackAux { st with queue := [] } (g.length + 1) (some pe) []
        all_goals
          constructor
        all_goals
          simp only [findRoute, findShortestGraphTraversal, loopExit, hne, hloop,
            if_neg htime, Except.map, hpe, hbt]
        all_goals
          constructor
        · intro h
          exact absurd h (by simp)
        · rintro ⟨r, hr, hle⟩
          obtain rfl : (i, some pe) = r := by simpa using hr
          exact absurd hle htime
        · intro h
          exact absurd h (by simp)
        · rintro ⟨r, hr, _, hnone⟩
          obtain rfl : (i, some pe) = r := by simpa using hr
          exact absurd hnone (by simp)
        · intro h
          exact absurd h (by simp)
        · rintro ⟨r, hr, hle⟩
          obtain rfl : (i, some pe) = r := by simpa using hr
          exact absurd hle htime
        · intro h
          exact absurd h (by simp)
        · rintro ⟨r, hr, _, hnone⟩
          obtain rfl : (i, some pe) = r := by simpa using hr
          exact absurd hnone (by simp)

/-- Witness for C3: the timeout classification on the fork graph with bound
2, and the no-route classification on the reversed two-node graph. -/
theorem claim_C3_witness :
    findRoute noPluginScorer gFork 0 1 [] 2 = .error .TimedOut ∧
    findRoute noPluginScorer gTwo 1 0 [] 100 = .error .NoRoute :=
  ⟨(claim_C3 noPluginScorer gFork 0 1 [] 2 (by decide)).1.mpr
    ⟨(2, some (mkEdge 50 0 1 1)), by decide, by decide⟩,
   (claim_C3 noPluginScorer gTwo 1 0 [] 100 (by decide)).2.mpr
    ⟨(1, none), by decide, by decide, rfl⟩⟩


/-! ## Queue and path infrastructure -/

theorem minElem_mem (l : List (ℚ × ℕ)) : ∀ best, minElem best l ∈ best :: l := by
  induction l with
  | nil =>
    intro best
    simp [minElem]
  | cons p rest ih =>
    intro best
    rw [minElem]
    have h := ih (if p.1 < best.1 then p else best)
    rcases List.mem_cons.mp h with h | h
    · rw [h]
      by_cases hlt : p.1 < best.1
      · rw [if_pos hlt]
        exact List.mem_cons_of_mem _ (List.mem_cons_self _ _)
      · rw [if_neg hlt]
        exact List.mem_cons_self _ _
    · exact List.mem_cons_of_mem _ (List.mem_cons_of_mem _ h)

theorem minElem_le (l : List (ℚ × ℕ)) :
    ∀ best, ∀ p ∈ best :: l, (minElem best l).1 ≤ p.1 := by
  induction l with
  | nil =>
    intro best p hp
    rcases List.mem_cons.mp hp with h | h
    · subst h
      exact le_refl _
    · exact absurd h (List.not_mem_nil p)
  | cons q rest ih =>
    intro best p hp
    have hble : (if q.1 < best.1 then q else best).1 ≤ best.1 := by
      by_cases hlt : q.1 < best.1 <;> simp [hlt]
      exact le_of_lt hlt
    have hqle : (if q.1 < best.1 then q else best).1 ≤ q.1 := by
      by_cases hlt : q.1 < best.1 <;> simp [hlt]
      exact not_lt.mp hlt
    have hmin : (minElem (if q.1 < best.1 then q else best) rest).1 ≤
        (if q.1 < best.1 then q else best).1 :=
      ih _ _ (List.mem_cons_self _ _)
    rcases List.mem_cons.mp hp with h | h
    · subst h
      exact le_trans (by rw [minElem]; exact hmin) hble
    · rcases List.mem_cons.mp h with h2 | h2
      · subst h2
        exact le_trans (by rw [minElem]; exact hmin) hqle
      · rw [minElem]
        exact ih _ _ (List.mem_cons_of_mem _ h2)

theorem eraseFirst_perm (l : List (ℚ × ℕ)) (m : ℚ × ℕ) (h : m ∈ l) :
    l.Perm (m :: eraseFirst l m) := by
  induction l with
  | nil => exact absurd h (List.not_mem_nil m)
  | cons p rest ih =>
    by_cases hp : p = m
    · subst hp
      rw [eraseFirst, if_pos rfl]
    · rw [eraseFirst, if_neg hp]
      have hm : m ∈ rest := by
        rcases List.mem_cons.mp h with h2 | h2
        · exact absurd h2.symm hp
        · exact h2
      exact List.Perm.trans (List.Perm.cons p (ih hm)) (List.Perm.swap m p _)

theorem getNextNode_spec (q : List (ℚ × ℕ)) (h : q ≠ []) :
    (getNextNode q).1 ∈ q ∧ (∀ p ∈ q, (getNextNode q).1.1 ≤ p.1) ∧
      q.Perm ((getNextNode q).1 :: (getNextNode q).2) := by
  cases q with
  | nil => exact absurd rfl h
  | cons p rest =>
    refine ⟨minElem_mem rest p, minElem_le rest p, ?_⟩
    exact eraseFirst_perm _ _ (minElem_mem rest p)

theorem pathCost_nil : pathCost [] = 0 := rfl

theorem pathCost_cons (e : Edge) (es : List Edge) :
    pathCost (e :: es) = e.edge_cost.cost + pathCost es := by
  simp [pathCost]

theorem pathCost_reverse (es : List Edge) : pathCost es.reverse = pathCost es := by
  simp [pathCost, List.sum_reverse]

theorem mem_getEdges_lt (g : Graph) (i : ℕ) (e : Edge) (he : e ∈ getEdges g i) :
    i < g.length := by
  by_contra hge
  have hdef : nodeOf g i = default := List.getD_eq_default _ _ (not_lt.mp hge)
  rw [getEdges, hdef] at he
  exact absurd he (List.not_mem_nil e)

theorem nodeOf_mem (g : Graph) (i : ℕ) (h : i < g.length) : nodeOf g i ∈ g := by
  rw [nodeOf, List.getD_eq_getElem g default h]
  exact List.getElem_mem h

theorem edge_cost_pos (g : Graph) (hPos : PosCosts g) (i : ℕ) (e : Edge)
    (he : e ∈ getEdges g i) : 0 < e.edge_cost.cost :=
  hPos (nodeOf g i) (nodeOf_mem g i (mem_getEdges_lt g i e he)) e he

theorem pathCost_nonneg (g : Graph) (hPos : PosCosts g) {v w : ℕ}
    {es : List Edge} (hp : IsPath g v w es) : 0 ≤ pathCost es := by
  induction hp with
  | nil => simp [pathCost]
  | cons e he hlink ih =>
    rw [pathCost_cons]
    have := edge_cost_pos g hPos _ e he
    linarith

theorem IsPath_append_single (g : Graph) {a b : ℕ} {p : List Edge}
    (hp : IsPath g a b p) (e : Edge) (he : e ∈ getEdges g b) :
    IsPath g a e.endIdx (p ++ [e]) := by
  induction hp with
  | nil => exact IsPath.cons e he (IsPath.nil _)
  | cons f hf hlink ih => exact IsPath.cons f hf (ih he)

theorem pathCost_append (a b : List Edge) :
    pathCost (a ++ b) = pathCost a + pathCost b := by
  simp [pathCost]

/-- With no plugins configured, `getTraversalCost` prices a nonzero-cost edge
by the blocked-id veto alone: allowed edges get their static cost, vetoed
edges are skipped with the reference untouched. -/
theorem getTraversalCost_static (scorer : EdgeScorerModel) (g : Graph)
    (goalId : ℕ) (blocked : List ℕ) (e : Edge) (tc : ℚ)
    (hNP : scorer.numPlugins = 0) (hc : e.edge_cost.cost ≠ 0) :
    getTraversalCost scorer g goalId blocked e tc =
      if edgeAllowed g goalId blocked e then .ok (true, e.edge_cost.cost)
      else .ok (false, tc) := by
  have hbool : (((blocked.any fun id => id == e.edgeid || id == endNodeid g e) &&
      !isGoal g goalId e.endIdx) = true) ↔ ¬ edgeAllowed g goalId blocked e := by
    simp only [Bool.and_eq_true, List.any_eq_true, Bool.or_eq_true, beq_iff_eq,
      Bool.not_eq_true', isGoal, beq_eq_false_iff_ne, edgeAllowed, endNodeid]
    constructor
    · rintro ⟨⟨id, hid, hmatch⟩, hng⟩
      rintro (hall | hgoal)
      · rcases hmatch with h | h
        · exact (hall id hid).1 h
        · exact (hall id hid).2 h
      · exact hng hgoal
    · intro hna
      by_cases hgoal : (nodeOf g e.endIdx).nodeid = goalId
      · exact absurd (Or.inr hgoal) hna
      · refine ⟨?_, hgoal⟩
        by_contra hnx
        push_neg at hnx
        refine hna (Or.inl fun id hid => ?_)
        have := hnx id hid
        tauto
  by_cases hall : edgeAllowed g goalId blocked e
  · rw [if_pos hall, getTraversalCost,
      if_neg (fun hcontra => (hbool.mp hcontra) hall),
      if_pos (by simp [hNP]), if_neg (by simpa using hc)]
  · rw [if_neg hall, getTraversalCost, if_pos (hbool.mpr hall)]

/-- Every recorded `integrated_cost` is nonnegative: it is the cost of an
actual path, and all static costs are positive. -/
theorem reach_nonneg (g : Graph) (hPos : PosCosts g) {goalId : ℕ}
    {blocked : List ℕ} {start v : ℕ} {c : ℚ}
    (h : ReachCost g goalId blocked start v c) : 0 ≤ c := by
  obtain ⟨es, hp, _, hc⟩ := h
  exact hc ▸ pathCost_nonneg g hPos hp

/-- Extending a realized cost along one more allowed edge. -/
theorem reach_step (g : Graph) {goalId : ℕ} {blocked : List ℕ}
    {start u : ℕ} {c : ℚ} (h : ReachCost g goalId blocked start u c)
    (e : Edge) (he : e ∈ getEdges g u)
    (hall : edgeAllowed g goalId blocked e) :
    ReachCost g goalId blocked start e.endIdx (c + e.edge_cost.cost) := by
  obtain ⟨es, hp, hes, hc⟩ := h
  refine ⟨es ++ [e], IsPath_append_single g hp e he, ?_, ?_⟩
  · intro f hf
    rcases List.mem_append.mp hf with h | h
    · exact hes f h
    · rw [List.mem_singleton.mp h]
      exact hall
  · rw [pathCost_append, hc, pathCost_cons, pathCost_nil]
    ring

/-- The central Dijkstra argument: a queue element of minimal cost whose cost
matches its node's recorded `integrated_cost` undercuts every veto-free path
from the start to that node. -/
theorem pop_optimal (g : Graph) (goalId : ℕ) (blocked : List ℕ) (start : ℕ)
    (S : Finset ℕ) (st : PlannerState) (hPos : PosCosts g)
    (hb : ChainInv g goalId blocked start S S st) (hq : QInv g S st)
    (c : ℚ) (u : ℕ) (hmem : (c, u) ∈ st.queue)
    (hmin : ∀ p ∈ st.queue, c ≤ p.1)
    (hmatch : st.integrated_cost u = some c) :
    ∀ es, IsPath g start u es → (∀ e ∈ es, edgeAllowed g goalId blocked e) →
      c ≤ pathCost es := by
  have hu : u ∉ S := fun huS => hq.fresh u huS c hmem hmatch
  have aux : ∀ es x cx, x ∈ S → st.integrated_cost x = some cx →
      IsPath g x u es → (∀ e ∈ es, edgeAllowed g goalId blocked e) →
      c ≤ cx + pathCost es := by
    intro es
    induction es with
    | nil =>
      intro x cx hxS hdx hpath hall
      cases hpath
      exact absurd hxS hu
    | cons e rest ih =>
      intro x cx hxS hdx hpath hall
      cases hpath with
      | cons _ he hlink =>
        have hel := hall e (List.mem_cons_self e rest)
        obtain ⟨cy, hdy, hcy⟩ := hb.relaxed x hxS cx hdx e he hel
        have hrest : 0 ≤ pathCost rest := pathCost_nonneg g hPos hlink
        rw [pathCost_cons]
        by_cases hyS : e.endIdx ∈ S
        · have := ih e.endIdx cy hyS hdy hlink
            fun f hf => hall f (List.mem_cons_of_mem e hf)
          linarith
        · rcases hq.cover e.endIdx cy hdy with h | h
          · exact absurd h hyS
          · have := hmin (cy, e.endIdx) h
            simp only at this
            linarith
  intro es hpath hall
  by_cases hs : start ∈ S
  · have := aux es start 0 hs hb.dstart hpath hall
    linarith
  · rcases hq.cover start 0 hb.dstart with h | h
    · exact absurd h hs
    · have hc0 := hmin (0, start) h
      simp only at hc0
      have := pathCost_nonneg g hPos hpath
      linarith

theorem improves_none (pc : ℚ) : improves pc none = true := rfl

theorem improves_some_iff (pc d0 : ℚ) : improves pc (some d0) = true ↔ pc < d0 := by
  simp [improves]

/-- One full inner-loop pass: expanding a settled node `u` (recorded at cost
`c`) over a sublist of its outgoing edges preserves the invariants, keeps
`u`'s cost, relaxes every allowed edge of the sublist, grows the queue by at
most one entry per edge, and never increases any recorded cost. -/
theorem expandEdges_spec (scorer : EdgeScorerModel) (g : Graph) (goalId : ℕ)
    (blocked : List ℕ) (start : ℕ)
    (hWF : WFGraph g) (hPos : PosCosts g) (hNP : scorer.numPlugins = 0)
    (S : Finset ℕ) (u : ℕ) (c : ℚ) (hu_lt : u < g.length) :
    ∀ (edges : List Edge), (∀ e ∈ edges, e ∈ getEdges g u) →
    ∀ (tc : ℚ) (st : PlannerState),
      st.integrated_cost u = some c →
      ChainInv g goalId blocked start (insert u S) S st →
      QInv g (insert u S) st →
      ∃ tc2 st2,
        expandEdges scorer g goalId blocked c edges tc st = .ok (tc2, st2) ∧
        st2.integrated_cost u = some c ∧
        ChainInv g goalId blocked start (insert u S) S st2 ∧
        QInv g (insert u S) st2 ∧
        (∀ e ∈ edges, edgeAllowed g goalId blocked e →
          ∃ cx, st2.integrated_cost e.endIdx = some cx ∧
            cx ≤ c + e.edge_cost.cost) ∧
        st2.queue.length ≤ st.queue.length + edges.length ∧
        (∀ v c0, st.integrated_cost v = some c0 →
          ∃ c1, st2.integrated_cost v = some c1 ∧ c1 ≤ c0) := by
  intro edges
  induction edges with
  | nil =>
    intro _ tc st hdu hb hq
    refine ⟨tc, st, rfl, hdu, hb, hq, ?_, by simp, fun v c0 h => ⟨c0, h, le_refl _⟩⟩
    intro e he
    exact absurd he (List.not_mem_nil e)
  | cons e rest ih =>
    intro hsub tc st hdu hb hq
    have he_mem : e ∈ getEdges g u := hsub e (List.mem_cons_self e rest)
    have hrest_sub : ∀ f ∈ rest, f ∈ getEdges g u :=
      fun f hf => hsub f (List.mem_cons_of_mem e hf)
    have hwpos : 0 < e.edge_cost.cost := edge_cost_pos g hPos u e he_mem
    have hprice := getTraversalCost_static scorer g goalId blocked e tc hNP
      (ne_of_gt hwpos)
    by_cases hall : edgeAllowed g goalId blocked e
    · rw [if_pos hall] at hprice
      have hx_lt : e.endIdx < g.length := (hWF u hu_lt e he_mem).2
      have hstart_eq : e.startIdx = u := (hWF u hu_lt e he_mem).1
      by_cases himp : improves (c + e.edge_cost.cost)
          (st.integrated_cost e.endIdx) = true
      · -- the relaxation fires: update the neighbor and push it
        have hreach_pc : ReachCost g goalId blocked start e.endIdx
            (c + e.edge_cost.cost) :=
          reach_step g (hb.sound u c hdu) e he_mem hall
        have hxT : e.endIdx ∉ insert u S := by
          intro hxT
          obtain ⟨_, hsome⟩ := hb.sbound e.endIdx hxT
          obtain ⟨cx0, hcx0⟩ := Option.isSome_iff_exists.mp hsome
          rw [hcx0] at himp
          have hlt := (improves_some_iff _ _).mp himp
          obtain ⟨es, hp, hesall, hcost⟩ := hreach_pc
          have := hb.pathlb e.endIdx hxT cx0 hcx0 es hp hesall
          rw [hcost] at this
          exact absurd hlt (not_lt.mpr this)
        have hxu : e.endIdx ≠ u := fun h => hxT (h ▸ Finset.mem_insert_self u S)
        have hxstart : e.endIdx ≠ start := by
          intro h
          have h0 : st.integrated_cost e.endIdx = some 0 := h ▸ hb.dstart
          rw [h0] at himp
          have := (improves_some_iff _ _).mp himp
          have hc0 : 0 ≤ c := reach_nonneg g hPos (hb.sound u c hdu)
          linarith
        set st1 : PlannerState :=
          { st with
            parent_edge := Function.update st.parent_edge e.endIdx (some e)
            integrated_cost := Function.update st.integrated_cost e.endIdx
              (some (c + e.edge_cost.cost))
            traversal_costs :=
              Function.update st.traversal_costs e.endIdx e.edge_cost.cost
            queue := st.queue ++ [(c + e.edge_cost.cost, e.endIdx)] } with hst1
        have hd1 : ∀ v, st1.integrated_cost v =
            if v = e.endIdx then some (c + e.edge_cost.cost)
            else st.integrated_cost v := by
          intro v
          by_cases hv : v = e.endIdx
          · subst hv
            simp [hst1, Function.update_same]
          · simp [hst1, Function.update_noteq hv, hv]
        have hp1 : ∀ v, st1.parent_edge v =
            if v = e.endIdx then some e else st.parent_edge v := by
          intro v
          by_cases hv : v = e.endIdx
          · subst hv
            simp [hst1, Function.update_same]
          · simp [hst1, Function.update_noteq hv, hv]
        have hq1 : st1.queue = st.queue ++ [(c + e.edge_cost.cost, e.endIdx)] := rfl
        have hdu1 : st1.integrated_cost u = some c := by
          rw [hd1, if_neg (fun h => hxu h.symm)]
          exact hdu
        have hb1 : ChainInv g goalId blocked start (insert u S) S st1 := by
          refine ⟨?_, ?_, ?_, ?_, ?_, ?_, ?_, ?_⟩
          · intro v cv hv
            rw [hd1] at hv
            by_cases hvx : v = e.endIdx
            · rw [if_pos hvx] at hv
              cases hv
              exact hvx ▸ hreach_pc
            · rw [if_neg hvx] at hv
              exact hb.sound v cv hv
          · rw [hd1, if_neg (fun h => hxstart h.symm)]
            exact hb.dstart
          · intro w hw cw hcw es hp hesall
            have hwx : w ≠ e.endIdx := fun h => hxT (h ▸ hw)
            rw [hd1, if_neg hwx] at hcw
            exact hb.pathlb w hw cw hcw es hp hesall
          · intro w hw cw hcw f hf hfall
            have hwx : w ≠ e.endIdx :=
              fun h => hxT (h ▸ Finset.mem_insert_of_mem hw)
            rw [hd1, if_neg hwx] at hcw
            obtain ⟨cx0, hcx0, hle⟩ := hb.relaxed w hw cw hcw f hf hfall
            by_cases hfx : f.endIdx = e.endIdx
            · refine ⟨c + e.edge_cost.cost, by rw [hd1, if_pos hfx], ?_⟩
              rw [hfx] at hcx0
              rw [hcx0] at himp
              have hlt := (improves_some_iff _ _).mp himp
              exact le_trans (le_of_lt hlt) hle
            · exact ⟨cx0, by rw [hd1, if_neg hfx]; exact hcx0, hle⟩
          · intro w hw
            obtain ⟨hwl, hws⟩ := hb.sbound w hw
            refine ⟨hwl, ?_⟩
            have hwx : w ≠ e.endIdx := fun h => hxT (h ▸ hw)
            rw [hd1, if_neg hwx]
            exact hws
          · intro v hv
            by_cases hvx : v = e.endIdx
            · exact hvx ▸ hx_lt
            · rw [hd1, if_neg hvx] at hv
              exact hb.dbound v hv
          · intro v f hvf
            rw [hp1] at hvf
            by_cases hvx : v = e.endIdx
            · rw [if_pos hvx] at hvf
              cases hvf
              refine ⟨hvx.symm, hstart_eq.symm ▸ he_mem, ?_, hall, c, ?_, ?_⟩
              · rw [hstart_eq]
                exact Finset.mem_insert_self u S
              · rw [hstart_eq, hd1, if_neg (fun h => hxu h.symm)]
                exact hdu
              · rw [hvx, hd1, if_pos rfl]
            · rw [if_neg hvx] at hvf
              obtain ⟨hend, hfmem, hfT, hfall, cw, hcw, hcv⟩ := hb.parent v f hvf
              refine ⟨hend, hfmem, hfT, hfall, cw, ?_, ?_⟩
              · have hfx2 : f.startIdx ≠ e.endIdx := fun h => hxT (h ▸ hfT)
                rw [hd1, if_neg hfx2]
                exact hcw
              · rw [hd1, if_neg hvx]
                exact hcv
          · intro v hv hvp
            by_cases hvx : v = e.endIdx
            · rw [hp1, if_pos hvx] at hvp
              simp at hvp
            · rw [hd1, if_neg hvx] at hv
              rw [hp1, if_neg hvx] at hvp
              exact hb.pnone v hv hvp
        have hqinv1 : QInv g (insert u S) st1 := by
          refine ⟨?_, ?_, ?_, ?_⟩
          · intro v cv hv
            rw [hd1] at hv
            by_cases hvx : v = e.endIdx
            · rw [if_pos hvx] at hv
              cases hv
              right
              rw [hq1, hvx]
              exact List.mem_append_right _ (List.mem_singleton_self _)
            · rw [if_neg hvx] at hv
              rcases hq.cover v cv hv with h | h
              · exact Or.inl h
              · exact Or.inr (by rw [hq1]; exact List.mem_append_left _ h)
          · intro p hp
            rw [hq1] at hp
            rcases List.mem_append.mp hp with hp | hp
            · obtain ⟨cp, hcp, hle⟩ := hq.qle p hp
              by_cases hpx : p.2 = e.endIdx
              · rw [hpx] at hcp
                rw [hcp] at himp
                have hlt := (improves_some_iff _ _).mp himp
                refine ⟨c + e.edge_cost.cost, by rw [hd1, if_pos hpx], ?_⟩
                exact le_trans (le_of_lt hlt) hle
              · exact ⟨cp, by rw [hd1, if_neg hpx]; exact hcp, hle⟩
            · rw [List.mem_singleton.mp hp]
              exact ⟨c + e.edge_cost.cost, by rw [hd1, if_pos rfl], le_refl _⟩
          · intro w hw cw hcw
            rw [hq1] at hcw
            rcases List.mem_append.mp hcw with h | h
            · have hwx : w ≠ e.endIdx := fun hh => hxT (hh ▸ hw)
              rw [hd1, if_neg hwx]
              exact hq.fresh w hw cw h
            · have := List.mem_singleton.mp h
              have hwx : w = e.endIdx := congrArg Prod.snd this
              exact absurd (hwx ▸ hw) hxT
          · intro v cv hv
            rw [hd1] at hv
            rw [hq1, List.countP_append]
            by_cases hvx : v = e.endIdx
            · rw [if_pos hvx] at hv
              cases hv
              have hzero : st.queue.countP
                  (fun p => p = (c + e.edge_cost.cost, e.endIdx)) = 0 := by
                by_contra hnz
                have hpos' : 0 < st.queue.countP
                    (fun p => p = (c + e.edge_cost.cost, e.endIdx)) :=
                  Nat.pos_of_ne_zero hnz
                obtain ⟨p, hpmem, hpeq⟩ := List.countP_pos_iff.mp hpos'
                have hpeq' : p = (c + e.edge_cost.cost, e.endIdx) := by
                  simpa using hpeq
                subst hpeq'
                obtain ⟨cp, hcp, hle⟩ := hq.qle _ hpmem
                simp only at hcp hle
                rw [hcp] at himp
                have := (improves_some_iff _ _).mp himp
                linarith
              rw [hvx, hzero]
              simp
            · rw [if_neg hvx] at hv
              have hsingle : List.countP (fun p => p = (cv, v))
                  [(c + e.edge_cost.cost, e.endIdx)] = 0 := by
                simp only [List.countP_singleton]
                have : ((c + e.edge_cost.cost, e.endIdx) : ℚ × ℕ) ≠ (cv, v) := by
                  intro hcontra
                  exact hvx (congrArg Prod.snd hcontra).symm
                simp [this]
              rw [hsingle]
              simpa using hq.uniqm v cv hv
        obtain ⟨tc2, st2, heq2, hdu2, hb2, hq2, hacc2, hlen2, hmono2⟩ :=
          ih hrest_sub e.edge_cost.cost st1 hdu1 hb1 hqinv1
        refine ⟨tc2, st2, ?_, hdu2, hb2, hq2, ?_, ?_, ?_⟩
        · show expandEdges scorer g goalId blocked c (e :: rest) tc st =
            .ok (tc2, st2)
          rw [expandEdges, hprice]
          simp only [if_pos himp]
          exact heq2
        · intro f hf hfall
          rcases List.mem_cons.mp hf with hfe | hfr
          · subst hfe
            obtain ⟨c1, hc1, hle1⟩ := hmono2 f.endIdx (c + f.edge_cost.cost)
              (by rw [hd1, if_pos rfl])
            exact ⟨c1, hc1, hle1⟩
          · exact hacc2 f hfr hfall
        · have h1 : st1.queue.length = st.queue.length + 1 := by
            rw [hq1, List.length_append, List.length_singleton]
          rw [List.length_cons]
          omega
        · intro v c0 hc0
          by_cases hvx : v = e.endIdx
          · rw [hvx] at hc0
            rw [hc0] at himp
            have hlt := (improves_some_iff _ _).mp himp
            obtain ⟨c1, hc1, hle1⟩ := hmono2 v (c + e.edge_cost.cost)
              (by rw [hd1, if_pos hvx])
            exact ⟨c1, hc1, le_trans hle1 (le_of_lt hlt)⟩
          · obtain ⟨c1, hc1, hle1⟩ := hmono2 v c0
              (by rw [hd1, if_neg hvx]; exact hc0)
            exact ⟨c1, hc1, hle1⟩
      · -- no improvement: the state is unchanged
        have himp' : improves (c + e.edge_cost.cost)
            (st.integrated_cost e.endIdx) = false := by
          revert himp
          cases improves (c + e.edge_cost.cost) (st.integrated_cost e.endIdx) <;>
            simp
        obtain ⟨tc2, st2, heq2, hdu2, hb2, hq2, hacc2, hlen2, hmono2⟩ :=
          ih hrest_sub e.edge_cost.cost st hdu hb hq
        refine ⟨tc2, st2, ?_, hdu2, hb2, hq2, ?_, ?_, hmono2⟩
        · rw [expandEdges, hprice]
          simp only [himp', Bool.false_eq_true, if_false, if_neg]
          exact heq2
        · intro f hf hfall
          rcases List.mem_cons.mp hf with hfe | hfr
          · subst hfe
            cases hdx : st.integrated_cost f.endIdx with
            | none =>
              rw [hdx] at himp'
              exact absurd (improves_none _) (by rw [himp']; simp)
            | some cx0 =>
              rw [hdx] at himp'
              have hnl : ¬(c + f.edge_cost.cost < cx0) := by
                intro hcontra
                rw [(improves_some_iff _ _).mpr hcontra] at himp'
                simp at himp'
              obtain ⟨c1, hc1, hle1⟩ := hmono2 f.endIdx cx0 hdx
              exact ⟨c1, hc1, le_trans hle1 (not_lt.mp hnl)⟩
          · exact hacc2 f hfr hfall
        · rw [List.length_cons]
          omega
    · -- the blocked-id veto skips the edge; the reference keeps its value
      rw [if_neg hall] at hprice
      obtain ⟨tc2, st2, heq2, hdu2, hb2, hq2, hacc2, hlen2, hmono2⟩ :=
        ih hrest_sub tc st hdu hb hq
      refine ⟨tc2, st2, ?_, hdu2, hb2, hq2, ?_, ?_, hmono2⟩
      · rw [expandEdges, hprice]
        simp only [Bool.false_eq_true, if_false]
        exact heq2
      · intro f hf hfall
        rcases List.mem_cons.mp hf with hfe | hfr
        · subst hfe
          exact absurd hfall hall
        · exact hacc2 f hfr hfall
      · rw [List.length_cons]
        omega


theorem searchLoop_exit (scorer : EdgeScorerModel) (g : Graph) (goalId : ℕ)
    (blocked : List ℕ) (maxIter : ℤ) (fuel : ℕ) (iterations : ℤ) (tc : ℚ)
    (st : PlannerState)
    (hguard : (st.queue.isEmpty || !(iterations < maxIter : Bool)) = true) :
    searchLoop scorer g goalId blocked maxIter fuel iterations tc st =
      .ok (iterations, st) := by
  cases fuel with
  | zero => rw [searchLoop, if_pos hguard]
  | succ f => rw [searchLoop, if_pos hguard]

theorem searchLoop_step (scorer : EdgeScorerModel) (g : Graph) (goalId : ℕ)
    (blocked : List ℕ) (maxIter : ℤ) (f : ℕ) (iterations : ℤ) (tc : ℚ)
    (st : PlannerState)
    (hguard : (st.queue.isEmpty || !(iterations < maxIter : Bool)) = false) :
    searchLoop scorer g goalId blocked maxIter (f + 1) iterations tc st =
      (if (some (getNextNode st.queue).1.1 ≠
          ({ st with queue := (getNextNode st.queue).2 } : PlannerState).integrated_cost
            (getNextNode st.queue).1.2 : Bool) then
        searchLoop scorer g goalId blocked maxIter f (iterations + 1) tc
          { st with queue := (getNextNode st.queue).2 }
      else if isGoal g goalId (getNextNode st.queue).1.2 then
        .ok (iterations + 1, { st with queue := (getNextNode st.queue).2 })
      else
        match expandEdges scorer g goalId blocked (getNextNode st.queue).1.1
            (getEdges g (getNextNode st.queue).1.2) tc
            { st with queue := (getNextNode st.queue).2 } with
        | .error e => .error e
        | .ok (tc1, st2) =>
          searchLoop scorer g goalId blocked maxIter f (iterations + 1) tc1 st2) := by
  rw [searchLoop, if_neg (by rw [hguard]; simp)]

/-- The master invariant lemma for the expansion loop: from a state
satisfying the invariants, with enough fuel for the iteration bound, the loop
returns without throwing, preserves the invariants, respects the iteration
accounting, and exits either at the bound, or with an emptied queue and every
costed node settled, or by popping a node carrying the goal id at a cost
undercutting every veto-free path from the start. -/
theorem searchLoop_spec (scorer : EdgeScorerModel) (g : Graph) (goalId : ℕ)
    (blocked : List ℕ) (start : ℕ) (maxIter : ℤ)
    (hWF : WFGraph g) (hPos : PosCosts g) (hNP : scorer.numPlugins = 0) :
    ∀ (fuel : ℕ) (iterations : ℤ) (tc : ℚ) (st : PlannerState) (S : Finset ℕ),
      ChainInv g goalId blocked start S S st →
      QInv g S st →
      iterations + st.queue.length ≤
        1 + Finset.sum S (fun w => ((getEdges g w).length : ℤ)) →
      maxIter ≤ iterations + fuel →
      ∃ i2 st2 S2,
        searchLoop scorer g goalId blocked maxIter fuel iterations tc st =
          .ok (i2, st2) ∧
        ChainInv g goalId blocked start S2 S2 st2 ∧
        i2 + st2.queue.length ≤
          1 + Finset.sum S2 (fun w => ((getEdges g w).length : ℤ)) ∧
        (∀ w ∈ S2, w < g.length) ∧
        (maxIter ≤ i2 ∨
          (st2.queue = [] ∧ ∀ v c, st2.integrated_cost v = some c → v ∈ S2) ∨
          (∃ nidx cg, isGoal g goalId nidx = true ∧
            st2.integrated_cost nidx = some cg ∧
            ∀ es, IsPath g start nidx es →
              (∀ e ∈ es, edgeAllowed g goalId blocked e) →
                cg ≤ pathCost es)) := by
  intro fuel
  induction fuel with
  | zero =>
    intro iterations tc st S hb hq hcount hfuel
    have hguard : (st.queue.isEmpty || !(iterations < maxIter : Bool)) = true := by
      have : ¬(iterations < maxIter) := by omega
      simp [this]
    refine ⟨iterations, st, S,
      searchLoop_exit scorer g goalId blocked maxIter 0 iterations tc st hguard,
      hb, hcount, fun w hw => (hb.sbound w hw).1, Or.inl (by omega)⟩
  | succ f ih =>
    intro iterations tc st S hb hq hcount hfuel
    by_cases hguard : (st.queue.isEmpty || !(iterations < maxIter : Bool)) = true
    · refine ⟨iterations, st, S,
        searchLoop_exit scorer g goalId blocked maxIter (f + 1) iterations tc st
          hguard,
        hb, hcount, fun w hw => (hb.sbound w hw).1, ?_⟩
      rcases Bool.or_eq_true_iff.mp hguard with h | h
      · refine Or.inr (Or.inl ⟨List.isEmpty_iff.mp h, fun v c hv => ?_⟩)
        rcases hq.cover v c hv with hvS | hvq
        · exact hvS
        · rw [List.isEmpty_iff.mp h] at hvq
          exact absurd hvq (List.not_mem_nil _)
      · refine Or.inl ?_
        have : ¬(iterations < maxIter) := by simpa using h
        omega
    · have hguard' : (st.queue.isEmpty || !(iterations < maxIter : Bool)) = false :=
        Bool.eq_false_iff.mpr hguard
      have hlt : iterations < maxIter := by
        rcases Bool.or_eq_false_iff.mp hguard' with ⟨_, h2⟩
        simpa using h2
      have hne : st.queue ≠ [] := by
        rcases Bool.or_eq_false_iff.mp hguard' with ⟨h1, _⟩
        intro hnil
        rw [hnil] at h1
        simp at h1
      obtain ⟨hpmem, hpmin, hperm⟩ := getNextNode_spec st.queue hne
      rw [searchLoop_step scorer g goalId blocked maxIter f iterations tc st hguard']
      set m := (getNextNode st.queue).1 with hm
      set q1 := (getNextNode st.queue).2 with hq1def
      set st1 : PlannerState := { st with queue := q1 } with hst1
      have hd_eq : st1.integrated_cost = st.integrated_cost := rfl
      have hpe_eq : st1.parent_edge = st.parent_edge := rfl
      have hqlen : st.queue.length = q1.length + 1 := by
        have := hperm.length_eq
        simpa using this
      have hb1 : ChainInv g goalId blocked start S S st1 :=
        ⟨hb.sound, hb.dstart, hb.pathlb, hb.relaxed, hb.sbound, hb.dbound,
          hb.parent, hb.pnone⟩
      have hq1sub : ∀ p, p ∈ q1 → p ∈ st.queue := by
        intro p hp
        exact hperm.mem_iff.mpr (List.mem_cons_of_mem m hp)
      have hcntle : ∀ pr : ℚ × ℕ → Bool,
          q1.countP pr ≤ st.queue.countP pr := by
        intro pr
        rw [hperm.countP_eq _, List.countP_cons]
        omega
      by_cases hstale : (some m.1 ≠ st1.integrated_cost m.2 : Bool) = true
      · -- stale element: discard and continue
        rw [if_pos hstale]
        have hstalep : st.integrated_cost m.2 ≠ some m.1 := by
          have := of_decide_eq_true hstale
          exact fun h => this h.symm
        have hq2 : QInv g S st1 := by
          refine ⟨?_, ?_, ?_, ?_⟩
          · intro v c hv
            rcases hq.cover v c hv with h | h
            · exact Or.inl h
            · right
              have : (c, v) ∈ m :: q1 := hperm.mem_iff.mp h
              rcases List.mem_cons.mp this with h2 | h2
              · exfalso
                apply hstalep
                have hveq : v = m.2 := congrArg Prod.snd h2
                have hceq : c = m.1 := congrArg Prod.fst h2
                rw [hveq, hceq] at hv
                exact hv
              · exact h2
          · intro p hp
            exact hq.qle p (hq1sub p hp)
          · intro w hw c hcw
            exact hq.fresh w hw c (hq1sub _ hcw)
          · intro v c hv
            have h1 := hq.uniqm v c hv
            have h2 := hcntle (fun p => p = (c, v))
            show q1.countP (fun p => p = (c, v)) ≤ 1
            omega
        have hcount1 : (iterations + 1) + st1.queue.length ≤
            1 + Finset.sum S (fun w => ((getEdges g w).length : ℤ)) := by
          have : st1.queue.length = q1.length := rfl
          omega
        obtain ⟨i2, st2, S2, heq, hbf, hcf, hwf, hex⟩ :=
          ih (iterations + 1) tc st1 S hb1 hq2 hcount1 (by omega)
        exact ⟨i2, st2, S2, heq, hbf, hcf, hwf, hex⟩
      · -- live element: its cost is the node's recorded cost
        rw [if_neg hstale]
        have hmatch : st.integrated_cost m.2 = some m.1 := by
          have := of_decide_eq_false (Bool.eq_false_iff.mpr hstale)
          push_neg at this
          exact this.symm
        have hmmem : (m.1, m.2) ∈ st.queue := by
          have : (m.1, m.2) = m := rfl
          rw [this]
          exact hpmem
        have hopt := pop_optimal g goalId blocked start S st hPos hb hq m.1 m.2
          hmmem hpmin hmatch
        by_cases hgoal : isGoal g goalId m.2 = true
        · -- the goal is popped: break
          rw [if_pos hgoal]
          refine ⟨iterations + 1, st1, S, rfl, hb1, ?_,
            fun w hw => (hb.sbound w hw).1,
            Or.inr (Or.inr ⟨m.2, m.1, hgoal, hmatch, hopt⟩)⟩
          have : st1.queue.length = q1.length := rfl
          omega
        · -- expand the popped node
          rw [if_neg hgoal]
          have huS : m.2 ∉ S := fun h => hq.fresh m.2 h m.1 hmmem hmatch
          have hu_lt : m.2 < g.length :=
            hb.dbound m.2 (by rw [hmatch]; rfl)
          have hbmid : ChainInv g goalId blocked start (insert m.2 S) S st1 := by
            refine ⟨hb.sound, hb.dstart, ?_, hb.relaxed, ?_, hb.dbound, ?_,
              hb.pnone⟩
            · intro w hw cw hcw es hp hesall
              rcases Finset.mem_insert.mp hw with hwu | hwS
              · subst hwu
                rw [hcw] at hmatch
                cases hmatch
                exact hopt es hp hesall
              · exact hb.pathlb w hwS cw hcw es hp hesall
            · intro w hw
              rcases Finset.mem_insert.mp hw with hwu | hwS
              · subst hwu
                exact ⟨hu_lt, by rw [hmatch]; rfl⟩
              · exact hb.sbound w hwS
            · intro v e hve
              obtain ⟨h1, h2, h3, h4, h5⟩ := hb.parent v e hve
              exact ⟨h1, h2, Finset.mem_insert_of_mem h3, h4, h5⟩
          have hqmid : QInv g (insert m.2 S) st1 := by
            refine ⟨?_, ?_, ?_, ?_⟩
            · intro v c hv
              rcases hq.cover v c hv with h | h
              · exact Or.inl (Finset.mem_insert_of_mem h)
              · have : (c, v) ∈ m :: q1 := hperm.mem_iff.mp h
                rcases List.mem_cons.mp this with h2 | h2
                · left
                  have : v = m.2 := congrArg Prod.snd h2
                  exact this ▸ Finset.mem_insert_self m.2 S
                · exact Or.inr h2
            · intro p hp
              exact hq.qle p (hq1sub p hp)
            · intro w hw c hcw
              rcases Finset.mem_insert.mp hw with hwu | hwS
              · subst hwu
                intro hdc
                have hceq : c = m.1 := by
                  have h2 : some m.1 = some c := hmatch.symm.trans hdc
                  exact (Option.some.inj h2).symm
                subst hceq
                have huniq := hq.uniqm m.2 m.1 hmatch
                have hcnt : st.queue.countP (fun p => p = (m.1, m.2)) =
                    (m :: q1).countP (fun p => p = (m.1, m.2)) :=
                  hperm.countP_eq _
                have hcons : (m :: q1).countP (fun p => p = (m.1, m.2)) =
                    q1.countP (fun p => p = (m.1, m.2)) + 1 := by
                  rw [List.countP_cons]
                  simp
                have hposq : 0 < q1.countP (fun p => p = (m.1, m.2)) :=
                  List.countP_pos_iff.mpr ⟨(m.1, m.2), hcw, by simp⟩
                omega
              · exact hq.fresh w hwS c (hq1sub _ hcw)
            · intro v c hv
              have h1 := hq.uniqm v c hv
              have h2 := hcntle (fun p => p = (c, v))
              show q1.countP (fun p => p = (c, v)) ≤ 1
              omega
          obtain ⟨tc2, st2, heq2, hdu2, hb2, hq2, hacc2, hlen2, hmono2⟩ :=
            expandEdges_spec scorer g goalId blocked start hWF hPos hNP S m.2 m.1
              hu_lt (getEdges g m.2) (fun e he => he) tc st1 hmatch hbmid hqmid
          simp only [heq2]
          have hbfull : ChainInv g goalId blocked start (insert m.2 S)
              (insert m.2 S) st2 := by
            refine ⟨hb2.sound, hb2.dstart, hb2.pathlb, ?_, hb2.sbound,
              hb2.dbound, hb2.parent, hb2.pnone⟩
            intro w hw cw hcw e he heall
            rcases Finset.mem_insert.mp hw with hwu | hwS
            · subst hwu
              have hceq : cw = m.1 := (Option.some.inj (hdu2.symm.trans hcw)).symm
              subst hceq
              exact hacc2 e he heall
            · exact hb2.relaxed w hwS cw hcw e he heall
          have hsum : Finset.sum (insert m.2 S)
              (fun w => ((getEdges g w).length : ℤ)) =
              ((getEdges g m.2).length : ℤ) +
                Finset.sum S (fun w => ((getEdges g w).length : ℤ)) :=
            Finset.sum_insert huS
          have hlen1 : st1.queue.length = q1.length := rfl
          have hcount2 : (iterations + 1) + st2.queue.length ≤
              1 + Finset.sum (insert m.2 S)
                (fun w => ((getEdges g w).length : ℤ)) := by
            rw [hsum]
            rw [hlen1] at hlen2
            omega
          obtain ⟨i2, st3, S3, heq3, hb3, hc3, hw3, hex3⟩ :=
            ih (iterations + 1) tc2 st2 (insert m.2 S) hbfull hq2 hcount2
              (by omega)
          exact ⟨i2, st3, S3, heq3, hb3, hc3, hw3, hex3⟩

theorem dAtMost_iff (st : PlannerState) (b : ℚ) (i : ℕ) :
    dAtMost st b i = true ↔
      ∃ ci, st.integrated_cost i = some ci ∧ ci ≤ b := by
  rw [dAtMost]
  cases h : st.integrated_cost i with
  | none => simp [h]
  | some ci => simp [h]

/-- Backtracking along the parent back-links from any costed node reaches the
start, and the accumulated edges (in reverse) form a veto-free path whose
cost is exactly the node's `integrated_cost`.  Termination: the recorded
costs strictly decrease along the chain, so the nodes with cost at most the
current one strictly decrease in number. -/
theorem backtrack_spec (g : Graph) (goalId : ℕ) (blocked : List ℕ)
    (start : ℕ) (S : Finset ℕ) (st : PlannerState)
    (hPos : PosCosts g)
    (hb : ChainInv g goalId blocked start S S st) :
    ∀ (fuel : ℕ) (v : ℕ) (cv : ℚ) (acc : List Edge),
      st.integrated_cost v = some cv →
      ((Finset.range g.length).filter (fun i => dAtMost st cv i = true)).card <
        fuel →
      ∃ tail, backtrackAux st fuel (st.parent_edge v) acc = some (acc ++ tail) ∧
        IsPath g start v tail.reverse ∧ pathCost tail = cv ∧
        (∀ e ∈ tail, edgeAllowed g goalId blocked e) := by
  intro fuel
  induction fuel with
  | zero =>
    intro v cv acc _ hcard
    exact absurd hcard (Nat.not_lt_zero _)
  | succ f ih =>
    intro v cv acc hv hcard
    cases hpe : st.parent_edge v with
    | none =>
      have hvst : v = start := hb.pnone v (by rw [hv]; rfl) hpe
      have hcv0 : cv = 0 := by
        rw [hvst] at hv
        exact (Option.some.inj (hb.dstart.symm.trans hv)).symm
      refine ⟨[], by simp [backtrackAux], ?_, by simp [pathCost, hcv0], ?_⟩
      · rw [hvst]
        exact IsPath.nil start
      · intro e he
        exact absurd he (List.not_mem_nil e)
    | some e =>
      obtain ⟨hend, hmem, hsT, hall, cu, hcu, hcv'⟩ := hb.parent v e hpe
      have hcveq : cv = cu + e.edge_cost.cost :=
        Option.some.inj (hv.symm.trans hcv')
      have hwpos : 0 < e.edge_cost.cost :=
        edge_cost_pos g hPos e.startIdx e hmem
      have hculcv : cu < cv := by
        rw [hcveq]
        linarith
      have hsubset : (Finset.range g.length).filter
            (fun i => dAtMost st cu i = true) ⊆
          (Finset.range g.length).filter (fun i => dAtMost st cv i = true) := by
        intro i hi
        rw [Finset.mem_filter] at hi ⊢
        refine ⟨hi.1, ?_⟩
        obtain ⟨ci, hci, hle⟩ := (dAtMost_iff st cu i).mp hi.2
        exact (dAtMost_iff st cv i).mpr ⟨ci, hci, le_trans hle (le_of_lt hculcv)⟩
      have hvmem : v ∈ (Finset.range g.length).filter
          (fun i => dAtMost st cv i = true) := by
        rw [Finset.mem_filter, Finset.mem_range]
        exact ⟨hb.dbound v (by rw [hv]; rfl),
          (dAtMost_iff st cv v).mpr ⟨cv, hv, le_refl _⟩⟩
      have hvnot : v ∉ (Finset.range g.length).filter
          (fun i => dAtMost st cu i = true) := by
        rw [Finset.mem_filter]
        rintro ⟨_, hq⟩
        obtain ⟨ci, hci, hle⟩ := (dAtMost_iff st cu v).mp hq
        have : ci = cv := Option.some.inj (hci.symm.trans hv)
        subst this
        exact absurd hculcv (not_lt.mpr hle)
      have hcard2 : ((Finset.range g.length).filter
            (fun i => dAtMost st cu i = true)).card < f := by
        have hss : (Finset.range g.length).filter
              (fun i => dAtMost st cu i = true) ⊂
            (Finset.range g.length).filter (fun i => dAtMost st cv i = true) :=
          ⟨hsubset, fun hcon => hvnot (hcon hvmem)⟩
        have := Finset.card_lt_card hss
        omega
      obtain ⟨tailu, hequ, hpathu, hcostu, hallu⟩ :=
        ih e.startIdx cu (acc ++ [e]) hcu hcard2
      refine ⟨e :: tailu, ?_, ?_, ?_, ?_⟩
      · rw [backtrackAux, hequ, List.append_assoc]
        rfl
      · have := IsPath_append_single g hpathu e hmem
        rw [hend] at this
        simpa using this
      · rw [pathCost_cons, hcostu, hcveq]
        ring
      · intro f hf
        rcases List.mem_cons.mp hf with h | h
        · exact h ▸ hall
        · exact hallu f h

/-- The invariants hold at the start of every search. -/
theorem initial_inv (g : Graph) (goalId : ℕ) (blocked : List ℕ) (start : ℕ)
    (hstart : start < g.length) :
    ChainInv g goalId blocked start ∅ ∅ (initialState start) ∧
    QInv g ∅ (initialState start) ∧
    (0 : ℤ) + ((initialState start).queue.length : ℤ) ≤
      1 + Finset.sum (∅ : Finset ℕ) (fun w => ((getEdges g w).length : ℤ)) := by
  have hd : ∀ v, (initialState start).integrated_cost v =
      if v = start then some 0 else none := by
    intro v
    by_cases hv : v = start
    · subst hv
      simp [initialState, resetState, Function.update_same]
    · simp [initialState, resetState, Function.update_noteq hv, hv]
  have hdsome : ∀ v c, (initialState start).integrated_cost v = some c →
      v = start ∧ c = 0 := by
    intro v c hv
    rw [hd] at hv
    by_cases hvs : v = start
    · rw [if_pos hvs] at hv
      exact ⟨hvs, (Option.some.inj hv).symm⟩
    · rw [if_neg hvs] at hv
      cases hv
  refine ⟨⟨?_, ?_, ?_, ?_, ?_, ?_, ?_, ?_⟩, ⟨?_, ?_, ?_, ?_⟩, ?_⟩
  · intro v c hv
    obtain ⟨hvs, hc0⟩ := hdsome v c hv
    subst hc0
    refine ⟨[], ?_, fun e he => absurd he (List.not_mem_nil e), rfl⟩
    rw [hvs]
    exact IsPath.nil start
  · rw [hd, if_pos rfl]
  · intro u hu
    exact absurd hu (Finset.not_mem_empty u)
  · intro u hu
    exact absurd hu (Finset.not_mem_empty u)
  · intro u hu
    exact absurd hu (Finset.not_mem_empty u)
  · intro v hv
    obtain ⟨c, hc⟩ := Option.isSome_iff_exists.mp hv
    exact (hdsome v c hc).1 ▸ hstart
  · intro v e hve
    simp [initialState, resetState] at hve
  · intro v hv _
    obtain ⟨c, hc⟩ := Option.isSome_iff_exists.mp hv
    exact (hdsome v c hc).1
  · intro v c hv
    obtain ⟨hvs, hc0⟩ := hdsome v c hv
    subst hvs
    subst hc0
    right
    show ((0 : ℚ), v) ∈ [((0 : ℚ), v)]
    exact List.mem_singleton_self _
  · intro p hp
    have : p = ((0 : ℚ), start) := List.mem_singleton.mp hp
    subst this
    exact ⟨0, by rw [hd, if_pos rfl], le_refl _⟩
  · intro u hu
    exact absurd hu (Finset.not_mem_empty u)
  · intro v c hv
    obtain ⟨hvs, hc0⟩ := hdsome v c hv
    subst hvs
    subst hc0
    show List.countP (fun p => p = ((0 : ℚ), v)) [((0 : ℚ), v)] ≤ 1
    simp
  · show (0 : ℤ) + (([((0 : ℚ), start)].length : ℤ)) ≤ 1 + 0
    simp

/-- If the loop stopped with its queue empty, every node with a recorded
cost is settled, so every veto-free path from the start stays inside the
settled region; in particular its endpoint carries a recorded, optimal
cost. -/
theorem settled_along_path (g : Graph) (goalId : ℕ) (blocked : List ℕ)
    (start : ℕ) (S : Finset ℕ) (st : PlannerState)
    (hb : ChainInv g goalId blocked start S S st)
    (hall_in : ∀ v c, st.integrated_cost v = some c → v ∈ S) :
    ∀ (es : List Edge) (x v : ℕ) (cx : ℚ), x ∈ S →
      st.integrated_cost x = some cx →
      IsPath g x v es → (∀ e ∈ es, edgeAllowed g goalId blocked e) →
      ∃ cv, st.integrated_cost v = some cv ∧ v ∈ S := by
  intro es
  induction es with
  | nil =>
    intro x v cx hxS hdx hpath _
    cases hpath
    exact ⟨cx, hdx, hxS⟩
  | cons e rest ih =>
    intro x v cx hxS hdx hpath hall
    cases hpath with
    | cons _ he hlink =>
      obtain ⟨cy, hdy, _⟩ := hb.relaxed x hxS cx hdx e he
        (hall e (List.mem_cons_self e rest))
      exact ih e.endIdx v cy (hall_in e.endIdx cy hdy) hdy hlink
        (fun f hf => hall f (List.mem_cons_of_mem e hf))

/-- C1 (amended): on a well-formed graph with unique node ids and strictly
positive static costs, with no scorer plugins, an empty blocked list, a path
from start to goal, start distinct from goal, and an iteration bound
exceeding the edge count plus one (the default bound of 2^31 - 1 in
particular), `findRoute` succeeds and its route realizes a path from start to
goal whose cost equals `route_cost`, which undercuts the cost of every path
from start to goal.  (The claim as stated — without the positive-cost
restriction the spec's own edge invariant demands — is refuted on a
negative-cost edge by `claim_C1_counterexample`.) -/
theorem claim_C1 (scorer : EdgeScorerModel) (g : Graph) (start goal : ℕ)
    (maxIter : ℤ)
    (hWF : WFGraph g) (hPos : PosCosts g) (hUniq : UniqueIds g)
    (hNP : scorer.numPlugins = 0)
    (hstart : start < g.length) (hgoal : goal < g.length) (hsg : start ≠ goal)
    (hiter : 1 + (totalDeg g : ℤ) < maxIter)
    (hpath : ∃ es, IsPath g start goal es) :
    ∃ route, findRoute scorer g start goal [] maxIter = .ok route ∧
      IsPath g start goal route.edges ∧
      pathCost route.edges = route.route_cost ∧
      ∀ es, IsPath g start goal es → route.route_cost ≤ pathCost es := by
  have hallow : ∀ e : Edge, edgeAllowed g (nodeOf g goal).nodeid [] e :=
    fun e => Or.inl fun id hid => absurd hid (List.not_mem_nil id)
  obtain ⟨hb0, hq0, hc0⟩ := initial_inv g (nodeOf g goal).nodeid [] start hstart
  have hfuel0 : maxIter ≤ 0 + (maxIter.toNat : ℤ) := by
    have := Int.self_le_toNat maxIter
    omega
  obtain ⟨i2, st2, S2, heq, hb2, hcnt2, hw2, hexit⟩ :=
    searchLoop_spec scorer g (nodeOf g goal).nodeid [] start maxIter hWF hPos
      hNP maxIter.toNat 0 0 (initialState start) ∅ hb0 hq0 hc0 hfuel0
  have hsum_le : Finset.sum S2 (fun w => ((getEdges g w).length : ℤ)) ≤
      (totalDeg g : ℤ) := by
    have hsub : S2 ⊆ Finset.range g.length :=
      fun w hw => Finset.mem_range.mpr (hw2 w hw)
    have hcast : (totalDeg g : ℤ) = Finset.sum (Finset.range g.length)
        (fun w => ((getEdges g w).length : ℤ)) := by
      rw [totalDeg]
      push_cast
      rfl
    rw [hcast]
    exact Finset.sum_le_sum_of_subset_of_nonneg hsub
      fun i _ _ => Int.natCast_nonneg _
  have hi2lt : i2 < maxIter := by
    have hlen0 : (0 : ℤ) ≤ (st2.queue.length : ℤ) := Int.natCast_nonneg _
    omega
  have htrav : findShortestGraphTraversal scorer g start goal [] maxIter =
      .ok (i2, { st2 with queue := [] }) := by
    rw [findShortestGraphTraversal]
    simp only [heq]
    rw [if_neg (not_le.mpr hi2lt)]
  have hb3 : ChainInv g (nodeOf g goal).nodeid [] start S2 S2
      { st2 with queue := [] } :=
    ⟨hb2.sound, hb2.dstart, hb2.pathlb, hb2.relaxed, hb2.sbound, hb2.dbound,
      hb2.parent, hb2.pnone⟩
  have hgoal_opt : ∃ cg, st2.integrated_cost goal = some cg ∧
      ∀ es, IsPath g start goal es → cg ≤ pathCost es := by
    rcases hexit with htime | ⟨hempty, hallin⟩ | ⟨nidx, cg, hisg, hdn, hopt⟩
    · exact absurd htime (not_le.mpr hi2lt)
    · obtain ⟨es, hes⟩ := hpath
      have hstartS : start ∈ S2 := hallin start 0 hb2.dstart
      obtain ⟨cg, hdg, hgS⟩ := settled_along_path g (nodeOf g goal).nodeid []
        start S2 st2 hb2 hallin es start goal 0 hstartS hb2.dstart hes
        (fun e _ => hallow e)
      exact ⟨cg, hdg, fun es2 hp =>
        hb2.pathlb goal hgS cg hdg es2 hp (fun e _ => hallow e)⟩
    · have hnlt : nidx < g.length := hb2.dbound nidx (by rw [hdn]; rfl)
      have hneq : nidx = goal := by
        apply hUniq nidx hnlt goal hgoal
        exact beq_iff_eq.mp hisg
      subst hneq
      exact ⟨cg, hdn, fun es2 hp => hopt es2 hp (fun e _ => hallow e)⟩
  obtain ⟨cg, hdg, hopt⟩ := hgoal_opt
  have hdg3 : ({ st2 with queue := [] } : PlannerState).integrated_cost goal =
      some cg := hdg
  have hpe : ∃ pe, ({ st2 with queue := [] } : PlannerState).parent_edge goal =
      some pe := by
    cases hp : st2.parent_edge goal with
    | none =>
      have : goal = start := hb2.pnone goal (by rw [hdg]; rfl) hp
      exact absurd this.symm hsg
    | some pe => exact ⟨pe, rfl⟩
  obtain ⟨pe, hpe⟩ := hpe
  have hcard : ((Finset.range g.length).filter
        (fun i => dAtMost { st2 with queue := [] } cg i = true)).card <
      g.length + 1 := by
    have h1 := Finset.card_filter_le (Finset.range g.length)
      (fun i => dAtMost { st2 with queue := [] } cg i = true)
    rw [Finset.card_range] at h1
    omega
  obtain ⟨tail, hbt, hpathtail, hcost, _⟩ :=
    backtrack_spec g (nodeOf g goal).nodeid [] start S2
      { st2 with queue := [] } hPos hb3 (g.length + 1) goal cg [] hdg3 hcard
  have hglen : g.isEmpty = false := by
    cases g with
    | nil => simp at hstart
    | cons a l => rfl
  rw [hpe] at hbt
  have hpe2 : st2.parent_edge goal = some pe := hpe
  refine ⟨⟨tail.reverse, start, cg⟩, ?_, hpathtail, ?_, fun es hp => hopt es hp⟩
  · rw [findRoute, hglen]
    simp only [Bool.false_eq_true, if_false, htrav, hpe2, hbt, List.nil_append,
      hdg, Option.getD_some]
  · rw [pathCost_reverse]
    exact hcost

/-- Counterexample to C1 as stated: the code only rejects static cost 0, so a
graph with a negative-cost edge is traversable, and on it `findRoute`
(correctly seeded, unbounded, no blocks) returns the direct route of cost 1
while the path through the negative edge costs -8 — the returned cost is not
the minimum over all start-to-goal paths.  Also, with start equal to goal the
trivial path exists yet `findRoute` fails with `NoRoute` (the goal never
acquires a `parent_edge`). -/
theorem claim_C1_counterexample :
    findRoute noPluginScorer gNeg 0 2 [] (configuredMaxIterations 0) =
      .ok ⟨[mkEdge 10 0 2 1], 0, 1⟩ ∧
    IsPath gNeg 0 2 [mkEdge 11 0 1 2, mkEdge 12 1 2 (-10)] ∧
    pathCost [mkEdge 11 0 1 2, mkEdge 12 1 2 (-10)] = -8 ∧
    ((-8 : ℚ) < 1) ∧
    findRoute noPluginScorer gOne 0 0 [] 100 = .error .NoRoute := by
  refine ⟨by decide, ?_, by decide, by decide, by decide⟩
  exact IsPath.cons (mkEdge 11 0 1 2) (by decide)
    (IsPath.cons (mkEdge 12 1 2 (-10)) (by decide) (IsPath.nil 2))

/-- Witness for C1: the spec §8 scenario (chain of three cost-1 edges plus a
direct cost-5 edge) under the default unbounded configuration. -/
theorem claim_C1_witness :
    ∃ route, findRoute noPluginScorer gChain 0 3 []
        (configuredMaxIterations 0) = .ok route ∧
      IsPath gChain 0 3 route.edges ∧
      pathCost route.edges = route.route_cost ∧
      ∀ es, IsPath gChain 0 3 es → route.route_cost ≤ pathCost es :=
  claim_C1 noPluginScorer gChain 0 3 (configuredMaxIterations 0)
    (by decide) (by decide) (by decide) rfl (by decide) (by decide)
    (by decide) (by decide)
    ⟨[mkEdge 20 0 1 1, mkEdge 21 1 2 1, mkEdge 22 2 3 1],
      IsPath.cons (mkEdge 20 0 1 1) (by decide)
        (IsPath.cons (mkEdge 21 1 2 1) (by decide)
          (IsPath.cons (mkEdge 22 2 3 1) (by decide) (IsPath.nil 3)))⟩

theorem blockedCond_true_iff (g : Graph) (goalId : ℕ) (blocked : List ℕ)
    (e : Edge) :
    (((blocked.any fun id => id == e.edgeid || id == endNodeid g e) &&
      !isGoal g goalId e.endIdx) = true) ↔
      ¬ edgeAllowed g goalId blocked e := by
  simp only [Bool.and_eq_true, List.any_eq_true, Bool.or_eq_true, beq_iff_eq,
    Bool.not_eq_true', isGoal, beq_eq_false_iff_ne, edgeAllowed, endNodeid]
  constructor
  · rintro ⟨⟨id, hid, hmatch⟩, hng⟩
    rintro (hall | hgoal)
    · rcases hmatch with h | h
      · exact (hall id hid).1 h
      · exact (hall id hid).2 h
    · exact hng hgoal
  · intro hna
    by_cases hgoal : (nodeOf g e.endIdx).nodeid = goalId
    · exact absurd (Or.inr hgoal) hna
    · refine ⟨?_, hgoal⟩
      by_contra hnx
      push_neg at hnx
      refine hna (Or.inl fun id hid => ?_)
      have := hnx id hid
      tauto

/-- A successful pricing (return value true) implies the edge passed the
blocked-id veto, whatever the scorer did. -/
theorem getTraversalCost_ok_true (scorer : EdgeScorerModel) (g : Graph)
    (goalId : ℕ) (blocked : List ℕ) (e : Edge) (tc c : ℚ)
    (h : getTraversalCost scorer g goalId blocked e tc = .ok (true, c)) :
    edgeAllowed g goalId blocked e := by
  by_contra hna
  rw [getTraversalCost,
    if_pos ((blockedCond_true_iff g goalId blocked e).mpr hna)] at h
  simp at h

/-- The inner loop only installs parent back-links that passed the blocked-id
veto (with any scorer and any cost values). -/
theorem expandEdges_parent_allowed (scorer : EdgeScorerModel) (g : Graph)
    (goalId : ℕ) (blocked : List ℕ) (curr : ℚ) :
    ∀ (edges : List Edge) (tc : ℚ) (st : PlannerState) (r : ℚ × PlannerState),
      expandEdges scorer g goalId blocked curr edges tc st = .ok r →
      (∀ v e, st.parent_edge v = some e → edgeAllowed g goalId blocked e) →
      ∀ v e, r.2.parent_edge v = some e → edgeAllowed g goalId blocked e := by
  intro edges
  induction edges with
  | nil =>
    intro tc st r hr hpre
    rw [expandEdges] at hr
    cases hr
    exact hpre
  | cons e rest ih =>
    intro tc st r hr hpre
    rw [expandEdges] at hr
    cases hgtc : getTraversalCost scorer g goalId blocked e tc with
    | error err => rw [hgtc] at hr; cases hr
    | ok p =>
      obtain ⟨valid, tc1⟩ := p
      rw [hgtc] at hr
      by_cases hv : valid = true
      · subst hv
        simp only [if_pos rfl] at hr
        by_cases himp : improves (curr + tc1) (st.integrated_cost e.endIdx) = true
        · rw [if_pos himp] at hr
          refine ih tc1 _ r hr ?_
          intro v f hvf
          by_cases hvx : v = e.endIdx
          · subst hvx
            simp only [addNode, Function.update_same] at hvf
            cases hvf
            exact getTraversalCost_ok_true scorer g goalId blocked e tc tc1 hgtc
          · simp only [addNode, Function.update_noteq hvx] at hvf
            exact hpre v f hvf
        · rw [if_neg himp] at hr
          exact ih tc1 st r hr hpre
      · have hv' : valid = false := by
          revert hv
          cases valid <;> simp
        subst hv'
        simp only [Bool.false_eq_true, if_false] at hr
        exact ih tc1 st r hr hpre

theorem searchLoop_zero (scorer : EdgeScorerModel) (g : Graph) (goalId : ℕ)
    (blocked : List ℕ) (maxIter : ℤ) (iterations : ℤ) (tc : ℚ)
    (st : PlannerState) :
    searchLoop scorer g goalId blocked maxIter 0 iterations tc st =
      .ok (iterations, st) := by
  rw [searchLoop]
  split
  · rfl
  · rfl

/-- Through the whole expansion loop, every installed parent back-link passed
the blocked-id veto. -/
theorem searchLoop_parent_allowed (scorer : EdgeScorerModel) (g : Graph)
    (goalId : ℕ) (blocked : List ℕ) (maxIter : ℤ) :
    ∀ (fuel : ℕ) (iterations : ℤ) (tc : ℚ) (st : PlannerState) (i2 : ℤ)
      (st2 : PlannerState),
      searchLoop scorer g goalId blocked maxIter fuel iterations tc st =
        .ok (i2, st2) →
      (∀ v e, st.parent_edge v = some e → edgeAllowed g goalId blocked e) →
      ∀ v e, st2.parent_edge v = some e → edgeAllowed g goalId blocked e := by
  intro fuel
  induction fuel with
  | zero =>
    intro iterations tc st i2 st2 hr hpre
    rw [searchLoop_zero] at hr
    cases hr
    exact hpre
  | succ f ih =>
    intro iterations tc st i2 st2 hr hpre
    by_cases hguard : (st.queue.isEmpty || !(iterations < maxIter : Bool)) = true
    · rw [searchLoop_exit scorer g goalId blocked maxIter (f + 1) iterations tc
        st hguard] at hr
      cases hr
      exact hpre
    · have hguard' : (st.queue.isEmpty || !(iterations < maxIter : Bool)) = false :=
        Bool.eq_false_iff.mpr hguard
      rw [searchLoop_step scorer g goalId blocked maxIter f iterations tc st
        hguard'] at hr
      by_cases hstale : (some (getNextNode st.queue).1.1 ≠
          ({ st with queue := (getNextNode st.queue).2 } : PlannerState).integrated_cost
            (getNextNode st.queue).1.2 : Bool) = true
      · rw [if_pos hstale] at hr
        exact ih _ _ _ _ _ hr hpre
      · rw [if_neg hstale] at hr
        by_cases hgoal : isGoal g goalId (getNextNode st.queue).1.2 = true
        · rw [if_pos hgoal] at hr
          cases hr
          exact hpre
        · rw [if_neg hgoal] at hr
          cases hexp : expandEdges scorer g goalId blocked
              (getNextNode st.queue).1.1
              (getEdges g (getNextNode st.queue).1.2) tc
              { st with queue := (getNextNode st.queue).2 } with
          | error err => rw [hexp] at hr; cases hr
          | ok pr =>
            rw [hexp] at hr
            refine ih _ _ _ _ _ hr ?_
            exact expandEdges_parent_allowed scorer g goalId blocked
              (getNextNode st.queue).1.1 (getEdges g (getNextNode st.queue).1.2)
              tc { st with queue := (getNextNode st.queue).2 } pr hexp hpre

/-- Backtracking only emits edges that are parent back-links (or were already
in the accumulator, or the seed). -/
theorem backtrackAux_forall (st : PlannerState) (P : Edge → Prop)
    (hP : ∀ v e, st.parent_edge v = some e → P e) :
    ∀ (fuel : ℕ) (pe : Option Edge) (acc out : List Edge),
      (∀ x ∈ acc, P x) → (∀ x, pe = some x → P x) →
      backtrackAux st fuel pe acc = some out → ∀ x ∈ out, P x := by
  intro fuel
  induction fuel with
  | zero =>
    intro pe acc out hacc hpe hr
    cases pe with
    | none =>
      rw [backtrackAux] at hr
      cases hr
      exact hacc
    | some e => cases hr
  | succ f ih =>
    intro pe acc out hacc hpe hr
    cases pe with
    | none =>
      rw [backtrackAux] at hr
      cases hr
      exact hacc
    | some e =>
      rw [backtrackAux] at hr
      refine ih (st.parent_edge e.startIdx) (acc ++ [e]) out ?_ ?_ hr
      · intro x hx
        rcases List.mem_append.mp hx with h | h
        · exact hacc x h
        · rw [List.mem_singleton.mp h]
          exact hpe e rfl
      · intro x hx
        exact hP e.startIdx x hx

/-- C4: in every successful `findRoute` call, no edge of the returned route
matches the blocked-id list by edge id or destination-node id, except that an
edge whose destination node carries the goal's node id is exempt from the
veto. -/
theorem claim_C4 (scorer : EdgeScorerModel) (g : Graph) (start goal : ℕ)
    (blocked : List ℕ) (maxIter : ℤ) (route : Route)
    (hok : findRoute scorer g start goal blocked maxIter = .ok route) :
    ∀ e ∈ route.edges,
      (∀ id ∈ blocked, id ≠ e.edgeid ∧ id ≠ endNodeid g e) ∨
        endNodeid g e = (nodeOf g goal).nodeid := by
  rw [findRoute] at hok
  by_cases hge : g.isEmpty = true
  · rw [if_pos hge] at hok
    cases hok
  · rw [if_neg hge] at hok
    rw [findShortestGraphTraversal] at hok
    cases hloop : searchLoop scorer g (nodeOf g goal).nodeid blocked maxIter
        maxIter.toNat 0 0 (initialState start) with
    | error e1 =>
      simp only [hloop] at hok
      exact Except.noConfusion hok
    | ok p =>
      obtain ⟨i, st⟩ := p
      simp only [hloop] at hok
      by_cases htime : maxIter ≤ i
      · rw [if_pos htime] at hok
        cases hok
      · rw [if_neg htime] at hok
        have hpre : ∀ v e, (initialState start).parent_edge v = some e →
            edgeAllowed g (nodeOf g goal).nodeid blocked e := by
          intro v e h
          simp [initialState, resetState] at h
        have hpar : ∀ v e, st.parent_edge v = some e →
            edgeAllowed g (nodeOf g goal).nodeid blocked e :=
          searchLoop_parent_allowed scorer g (nodeOf g goal).nodeid blocked
            maxIter maxIter.toNat 0 0 (initialState start) i st hloop hpre
        cases hpg : st.parent_edge goal with
        | none =>
          simp only [hpg] at hok
          exact Except.noConfusion hok
        | some pe =>
          simp only [hpg] at hok
          cases hbt : backtrackAux { st with queue := [] } (g.length + 1)
              (some pe) [] with
          | none =>
            simp only [hbt] at hok
            exact Except.noConfusion hok
          | some edges =>
            simp only [hbt] at hok
            cases hok
            intro e he
            have hmem : e ∈ edges := List.mem_reverse.mp he
            exact backtrackAux_forall { st with queue := [] }
              (edgeAllowed g (nodeOf g goal).nodeid blocked)
              (fun v f h => hpar v f h) (g.length + 1) (some pe) [] edges
              (fun x hx => absurd hx (List.not_mem_nil x))
              (fun x hx => by cases hx; exact hpar goal pe hpg) hbt e hmem

/-- Witness for C4: on the two-node graph with the goal's node id blocked,
the successful route uses the goal-adjacent edge, exempt from the veto. -/
theorem claim_C4_witness :
    (∀ id ∈ ([1] : List ℕ), id ≠ (mkEdge 30 0 1 1).edgeid ∧
      id ≠ endNodeid gTwo (mkEdge 30 0 1 1)) ∨
      endNodeid gTwo (mkEdge 30 0 1 1) = (nodeOf gTwo 1).nodeid :=
  claim_C4 noPluginScorer gTwo 0 1 [1] 100 ⟨[mkEdge 30 0 1 1], 0, 1⟩
    (by decide) (mkEdge 30 0 1 1) (by decide)

end Nav2Route
